import Mathlib

/-!
# Memory virtualization and scheduling

A shallow embedding of `src/memory virtualization/translation.cpp`,
`src/memory virtualization/replacement.cpp` and
`src/processes and scheduling/scheduler.cpp`.

Conventions of the embedding

* A C++ `int` is a Lean `Int` that lies in `[-2^31, 2^31)`.  Operations that can
  leave that range are followed by `wrap32`; operations whose behaviour the
  language leaves undefined (division by zero, `log2` of a non-positive number
  converted to `int`) yield `none`, or the signal `UNDEFINED` inside the
  translation pipeline.
* A C++ exception is the `error` side of `Except Signal _`.
* Objects that the functions mutate through pointers (`TLB*`, `PageTable*`) are
  passed explicitly: a stateful function takes them and returns them in its `Outcome`.
* A `FrameList*` is a `List Frame`: the empty list is `NULL`, and a pointer to a
  node of the list is the position of that node.
* An array of `n_jobs` jobs is a `List Job` of that length, and the calls of `run_job`
  are collected in a list, oldest first.
* A loop without a syntactic bound takes a bound `fuel` on its iterations and yields
  `none` when the bound is used up; the theorems show which bounds suffice.
-/

namespace OSC

/-! ## Machine integers -/

/-- Reduction of an integer to the value range of a 32-bit two's complement `int`. -/
def wrap32 (x : Int) : Int := (x + 2147483648) % 4294967296 - 2147483648

/-- The least value of an `int`. -/
def INT_MIN : Int := -2147483648

/-- The greatest value of an `int`. -/
def INT_MAX : Int := 2147483647

/-- The C++ expression `x << n` on `int`, for a shift count `0 <= n < 32`: the product
`x * 2^n` reduced to 32 bits. -/
def shl32 (x : Int) (n : Nat) : Int := wrap32 (x * 2 ^ n)

/-- Binary logarithm rounded down, by repeated halving; `fuel` bounds the number of
halvings. -/
def log2Fuel : Nat → Nat → Nat
  | 0, _ => 0
  | fuel + 1, n => if n < 2 then 0 else log2Fuel fuel (n / 2) + 1

/-- The C++ initialisation `int offset_bits = log2(page_size);` for `page_size >= 1`:
the double-precision logarithm truncated toward zero, which for every positive `int`
is the binary logarithm rounded down (31 halvings exhaust an `int`). -/
def log2_int (page_size : Int) : Nat := log2Fuel 31 page_size.toNat

/-! ## translation.cpp: pure address arithmetic -/

/-- Embedding of `split_virtual_address`: the pair `(VPN, offset)` written through the two
out-parameters.  A `page_size <= 0` has no logarithm that converts to `int`: `none`. -/
def split_virtual_address (virtual_address page_size : Int) : Option (Int × Int) :=
  if page_size ≤ 0 then none
  else
    let offset_bits := log2_int page_size
    let offset := Int.land virtual_address (wrap32 (page_size - 1))
    let VPN := virtual_address >>> offset_bits
    some (VPN, offset)

/-- Embedding of `split_VPN`: the pair `(index, tag)` written through the two
out-parameters; `%` and `/` are the truncating C++ operators.  Division by zero and the
overflowing quotient `INT_MIN / -1` are undefined: `none`. -/
def split_VPN (VPN k : Int) : Option (Int × Int) :=
  if k = 0 ∨ (VPN = INT_MIN ∧ k = -1) then none
  else
    let index := Int.tmod VPN k
    let tag := Int.tdiv VPN k
    some (index, tag)

/-- Embedding of `get_physical_address`. -/
def get_physical_address (PFN offset page_size : Int) : Option Int :=
  if page_size ≤ 0 then none
  else
    let offset_bits := log2_int page_size
    let physical_address := Int.lor (shl32 PFN offset_bits) offset
    some physical_address

/-! ## translation.cpp: page table entries, signals, TLB and page table -/

/-- Modelled from the spec: the struct `PTE` is declared in the absent header `src.hpp`.
The fields are the ones `translation.cpp` reads (`PFN`, `valid_bit`, `protect_bit`,
`present_bit`), the spec's `PageTableEntry` of a frame number and three flags; the
flags are `int`s that the source compares with `0` and `1`. -/
structure PTE where
  PFN : Int
  valid_bit : Int
  present_bit : Int
  protect_bit : Int
  deriving DecidableEq, Repr

/-- What a function of `translation.cpp` can throw: the `TLB_MISS` exception of
`TLB_lookup`, the three faults, and `UNDEFINED` for an operation without defined
behaviour. -/
inductive Signal where
  | TLB_MISS
  | SEGMENTATION_FAULT
  | PROTECTION_FAULT
  | PAGE_FAULT
  | UNDEFINED
  deriving DecidableEq, Repr

deriving instance DecidableEq for Except

/-- Modelled from the spec: `segmentation_fault()` is declared in the absent `src.hpp`.
The spec has every fault raised as a synchronous typed signal, and `table_lookup`
dereferences `entry` right after the call on a null `entry`, so the call does not
return. -/
def segmentation_fault {α : Type} : Except Signal α := Except.error Signal.SEGMENTATION_FAULT

/-- Modelled from the spec: `protection_fault()` is declared in the absent `src.hpp`; it
raises the typed signal `ProtectionFault` and does not return. -/
def protection_fault {α : Type} : Except Signal α := Except.error Signal.PROTECTION_FAULT

/-- Modelled from the spec: `page_fault()` is declared in the absent `src.hpp`; it raises
the typed signal `PageFault` and does not return. -/
def page_fault {α : Type} : Except Signal α := Except.error Signal.PAGE_FAULT

/-- One occupied slot of a TLB set: the tag and a copy of the page table entry. -/
structure TLBEntry where
  tag : Int
  entry : PTE
  deriving DecidableEq, Repr

/-- Modelled from the spec: the class `TLB` is declared in the absent `src.hpp`; the
source uses its member `k` and its methods `lookup` and `add_entry`.  Following the
spec, the TLB has `k >= 1` sets, addressed by the index that `split_VPN` computes, and
each set holds at most `ways >= 1` entries; `sets i` lists the occupied slots of set
`i`, the most recently inserted first. -/
structure TLB where
  k : Int
  ways : Nat
  sets : Int → List TLBEntry
  k_pos : 1 ≤ k
  ways_pos : 0 < ways

/-- Modelled from the spec: `TLB::lookup(index, tag, &entry)` scans the entries of set
`index` for a matching tag; `some e` is the return value `true` with `*entry = e`,
`none` is the return value `false`.  The scan starts at the most recent entry. -/
def TLB.lookup (tlb : TLB) (index tag : Int) : Option PTE :=
  ((tlb.sets index).find? (fun s => decide (s.tag = tag))).map TLBEntry.entry

/-- Modelled from the spec: `TLB::add_entry(index, tag, entry)` stores a copy of the
entry in set `index`: it occupies a free slot if the set has one, and otherwise evicts
the oldest slot. -/
def TLB.add_entry (tlb : TLB) (index tag : Int) (entry : PTE) : TLB :=
  { tlb with
    sets := fun i =>
      if i = index then (TLBEntry.mk tag entry :: tlb.sets index).take tlb.ways
      else tlb.sets i }

/-- Modelled from the spec: the class `PageTable` is declared in the absent `src.hpp`.
The spec treats it as an opaque map from a VPN to an entry or `Absent`; `lookups` is a
ghost counter of the calls of `PageTable::lookup`. -/
structure PageTable where
  entries : Int → Option PTE
  lookups : Nat

/-- Modelled from the spec: `PageTable::lookup(VPN, &entry)` leaves `entry` null
(`none`) when the table has no entry for the VPN; each call is counted. -/
def PageTable.lookup (table : PageTable) (VPN : Int) : Option PTE × PageTable :=
  (table.entries VPN, { table with lookups := table.lookups + 1 })

/-- The page table, after one more counted lookup. -/
def PageTable.walked (table : PageTable) : PageTable :=
  { table with lookups := table.lookups + 1 }

/-- A TLB with four sets of two slots, all free. -/
def tlb_cold : TLB :=
  { k := 4, ways := 2, sets := fun _ => [], k_pos := by decide, ways_pos := by decide }

/-- A TLB with four sets of two slots that caches VPN 1 (set 1, tag 0, frame 5) and,
protected, VPN 6 (set 2, tag 1, frame 8). -/
def tlb_warm : TLB :=
  { k := 4, ways := 2,
    sets := fun i =>
      if i = 1 then [TLBEntry.mk 0 (PTE.mk 5 1 1 0)]
      else if i = 2 then [TLBEntry.mk 1 (PTE.mk 8 1 1 1)]
      else [],
    k_pos := by decide, ways_pos := by decide }

/-- A page table with one fixture per outcome: VPN 1 is mapped to frame 5, VPN 2 is
invalid, VPN 3 is protected and not present, VPN 4 is not present, VPN 5 is invalid and
protected; every other VPN has no entry. -/
def table_fixture : PageTable :=
  { entries := fun v =>
      if v = 1 then some (PTE.mk 5 1 1 0)
      else if v = 2 then some (PTE.mk 6 0 1 0)
      else if v = 3 then some (PTE.mk 7 1 0 1)
      else if v = 4 then some (PTE.mk 9 1 0 0)
      else if v = 5 then some (PTE.mk 3 0 0 1)
      else none,
    lookups := 0 }

/-- A page table without entries. -/
def table_empty : PageTable := { entries := fun _ => none, lookups := 0 }

/-- The outcome of a stateful function: the value returned or the signal thrown,
together with the page table and the TLB as the call leaves them. -/
structure Outcome where
  result : Except Signal Int
  table : PageTable
  tlb : TLB

/-! ## translation.cpp: lookups and the translation pipeline -/

/-- Embedding of `TLB_lookup`; the call leaves the TLB as it is. -/
def TLB_lookup (tlb : TLB) (VPN : Int) : Except Signal Int :=
  match split_VPN VPN tlb.k with
  | none => Except.error Signal.UNDEFINED
  | some (index, tag) =>
    match tlb.lookup index tag with
    | none => Except.error Signal.TLB_MISS
    | some entry =>
      if entry.protect_bit = 1 then protection_fault
      else Except.ok entry.PFN

/-- Embedding of `table_lookup`. -/
def table_lookup (table : PageTable) (tlb : TLB) (VPN : Int) : Outcome :=
  let found := table.lookup VPN
  match found.1 with
  | none => ⟨segmentation_fault, found.2, tlb⟩
  | some entry =>
    if entry.valid_bit = 0 then ⟨segmentation_fault, found.2, tlb⟩
    else if entry.protect_bit = 1 then ⟨protection_fault, found.2, tlb⟩
    else if entry.present_bit = 0 then ⟨page_fault, found.2, tlb⟩
    else
      match split_VPN VPN tlb.k with
      | none => ⟨Except.error Signal.UNDEFINED, found.2, tlb⟩
      | some (index, tag) => ⟨Except.ok entry.PFN, found.2, tlb.add_entry index tag entry⟩

/-- The last statement of `virtual_to_physical`:
`return get_physical_address(PFN, offset, page_size);`. -/
def return_physical (PFN offset page_size : Int) : Except Signal Int :=
  match get_physical_address PFN offset page_size with
  | none => Except.error Signal.UNDEFINED
  | some physical_address => Except.ok physical_address

/-- Embedding of `virtual_to_physical`: the `try` block is the call of `TLB_lookup`, the
handler calls `table_lookup` on `TLB_MISS` and rethrows every other signal. -/
def virtual_to_physical (virtual_address page_size : Int) (tlb : TLB) (table : PageTable) :
    Outcome :=
  match split_virtual_address virtual_address page_size with
  | none => ⟨Except.error Signal.UNDEFINED, table, tlb⟩
  | some (VPN, offset) =>
    match TLB_lookup tlb VPN with
    | Except.ok PFN => ⟨return_physical PFN offset page_size, table, tlb⟩
    | Except.error Signal.TLB_MISS =>
      let walked := table_lookup table tlb VPN
      match walked.result with
      | Except.ok PFN => ⟨return_physical PFN offset page_size, walked.table, walked.tlb⟩
      | Except.error signal => ⟨Except.error signal, walked.table, walked.tlb⟩
    | Except.error signal => ⟨Except.error signal, table, tlb⟩

/-! ## replacement.cpp -/

/-- Modelled from the spec: the node type `FrameList` is declared in the absent
`src.hpp`.  A node carries the recency marker `idx` and the reference bit `clock_bit`
that `replacement.cpp` reads; the `next` pointers are the order of the list. -/
structure Frame where
  idx : Int
  clock_bit : Int
  deriving DecidableEq, Repr

/-- What a replacement function hands back: the returned count of frames stepped
through, and the node stored in `*frame_to_remove_ptr`, as its position in the list
(`none` for `NULL`). -/
structure Choice where
  frames_accessed : Int
  frame_to_remove : Option Nat
  deriving DecidableEq, Repr

/-- Embedding of `fifo`. -/
def fifo (active_frames : List Frame) : Choice :=
  match active_frames with
  | [] => ⟨0, none⟩
  | _ :: _ => ⟨1, some 0⟩

/-- The `while (current != NULL)` loop of `lru`.  The first argument is the list from
`current` on and `position` is the position of `current`; the loop state is `min_idx`,
`lru_frame` (a position) and `frames_accessed`. -/
def lru_loop : List Frame → Nat → Int → Nat → Int → Nat × Int
  | [], _, _, lru_frame, frames_accessed => (lru_frame, frames_accessed)
  | current :: next, position, min_idx, lru_frame, frames_accessed =>
    if current.idx < min_idx then
      lru_loop next (position + 1) current.idx position (wrap32 (frames_accessed + 1))
    else
      lru_loop next (position + 1) min_idx lru_frame (wrap32 (frames_accessed + 1))

/-- Embedding of `lru`. -/
def lru (active_frames : List Frame) : Choice :=
  match active_frames with
  | [] => ⟨0, none⟩
  | current :: _ =>
    let final := lru_loop active_frames 0 current.idx 0 0
    ⟨final.2, some final.1⟩

/-- What `clock_lru` leaves behind: the returned count, the node stored in
`*frame_to_remove_ptr` (a position, `none` for `NULL`), and the list with the
`clock_bit`s as the call leaves them. -/
structure ClockResult where
  frames_accessed : Int
  frame_to_remove : Option Nat
  frames : List Frame
  deriving DecidableEq, Repr

/-- The assignment `current->clock_bit = 0`. -/
def Frame.reset (f : Frame) : Frame := { f with clock_bit := 0 }

/-- The `while (1)` loop of `clock_lru`.  `frames` is the list as the loop has changed it
so far, `current` the position of the node `current` points to; `fuel` bounds the number
of iterations, and `none` stands for a loop that has not returned within `fuel`
iterations. -/
def clock_loop : Nat → List Frame → Nat → Int → Option ClockResult
  | 0, _, _, _ => none
  | fuel + 1, frames, current, frames_accessed =>
    match frames[current]? with
    | none => none
    | some node =>
      if node.clock_bit = 0 then
        some ⟨wrap32 (frames_accessed + 1), some current, frames⟩
      else
        clock_loop fuel (frames.set current node.reset)
          (if current + 1 = frames.length then 0 else current + 1)
          (wrap32 (frames_accessed + 1))

/-- Embedding of `clock_lru`, with a bound `fuel` on the iterations of its loop. -/
def clock_lru_fuel (fuel : Nat) (active_frames : List Frame) : Option ClockResult :=
  match active_frames with
  | [] => some ⟨0, none, []⟩
  | _ :: _ => clock_loop fuel active_frames 0 0

/-- Embedding of `clock_lru`; the bound on its loop is one iteration per node and one
more, which always suffices. -/
def clock_lru (active_frames : List Frame) : Option ClockResult :=
  clock_lru_fuel (active_frames.length + 1) active_frames

/-! ## scheduler.cpp -/

/-- Modelled from the spec: the struct `Job` is declared in the absent `src.hpp`.  The
fields are the ones `scheduler.cpp` reads and writes (`idx`, `priority`, `time`, all
`int`); the member `run_job` is the action of running the job, which the embedding
records as a `Call`. -/
structure Job where
  idx : Int
  priority : Int
  time : Int
  deriving DecidableEq, Repr

/-- One call `job.run_job(run_time)`: the struct the member is called on, as it is at
the time of the call, and the argument. -/
structure Call where
  job : Job
  run_time : Int
  deriving DecidableEq, Repr

/-- Embedding of `compare_jobs`. -/
def compare_jobs (jobA jobB : Job) : Int :=
  if jobA.priority < jobB.priority then -1
  else if jobA.priority > jobB.priority then 1
  else if jobA.idx < jobB.idx then -1
  else if jobA.idx > jobB.idx then 1
  else 0

/-- Embedding of `compare_jobs_by_idx`. -/
def compare_jobs_by_idx (jobA jobB : Job) : Int :=
  if jobA.idx < jobB.idx then -1
  else if jobA.idx > jobB.idx then 1
  else 0

/-- The C library function `qsort(base, nmemb, sizeof(Job), compar)` on an array of
`nmemb` jobs.  The standard fixes the result up to the order of elements that compare
equal; the embedding sorts by insertion, which is one of the permitted results. -/
def qsort (compar : Job → Job → Int) (base : List Job) : List Job :=
  base.insertionSort (fun a b => compar a b ≤ 0)

/-- What `priority` leaves behind: the calls of `run_job` in the order they are made,
and the caller's array. -/
structure PriorityRun where
  calls : List Call
  jobs : List Job
  deriving DecidableEq, Repr

/-- Embedding of `priority`; the array `jobs` of `n_jobs` elements is a list of that
length.  The copy `sorted_jobs` is sorted and run front to back. -/
def priority (jobs : List Job) : PriorityRun :=
  let sorted_jobs := qsort compare_jobs jobs
  ⟨sorted_jobs.map (fun job => ⟨job, job.time⟩), jobs⟩

/-- The variables of `priority_rr` that outlive one statement: the copy `active_jobs`,
the counters `jobs_remaining` and `jobs_in_queue`, and the calls of `run_job` made so
far, oldest first. -/
structure RRState where
  active_jobs : List Job
  jobs_remaining : Int
  jobs_in_queue : Int
  calls : List Call
  deriving DecidableEq, Repr

/-- The first `for` loop in the body of the main loop of `priority_rr`: the least
priority number among the jobs with time left, starting from `highest_priority`. -/
def find_highest_priority : List Job → Int → Int
  | [], highest_priority => highest_priority
  | job :: rest, highest_priority =>
    if job.time > 0 ∧ job.priority < highest_priority then
      find_highest_priority rest job.priority
    else find_highest_priority rest highest_priority

/-- The second `for` loop: `current_queue` receives, in array order, the jobs with time
left at the priority level. -/
def build_queue (active_jobs : List Job) (highest_priority : Int) : List Job :=
  active_jobs.filter (fun job => decide (job.time > 0 ∧ job.priority = highest_priority))

/-- The `for (j ...)` loop with its `break`: the first job of `active_jobs` whose `idx` is
`idx` is run for `run_time` and its `time` reduced; `none` when no job has that `idx`.
The difference `time - run_time` stays within `int` whenever `time_slice > 0`. -/
def run_matching (time_slice idx : Int) : List Job → Option (List Job × Call)
  | [] => none
  | job :: rest =>
    if job.idx = idx then
      let run_time := if job.time < time_slice then job.time else time_slice
      some ({ job with time := job.time - run_time } :: rest, ⟨job, run_time⟩)
    else
      match run_matching time_slice idx rest with
      | none => none
      | some (rest', call) => some (job :: rest', call)

/-- One iteration of the `for (i ...)` loop of the round robin, on the queue entry
`queued = current_queue[i]`; returns the entry as the iteration leaves it. -/
def rr_visit (time_slice : Int) (queued : Job) (s : RRState) : Job × RRState :=
  if queued.time ≤ 0 then (queued, s)
  else
    match run_matching time_slice queued.idx s.active_jobs with
    | none => (queued, s)
    | some (active_jobs, call) =>
      ({ queued with time := queued.time - call.run_time },
        { active_jobs := active_jobs,
          jobs_remaining :=
            if call.job.time - call.run_time ≤ 0 then s.jobs_remaining - 1
            else s.jobs_remaining,
          jobs_in_queue :=
            if call.job.time - call.run_time ≤ 0 then s.jobs_in_queue - 1
            else s.jobs_in_queue,
          calls := s.calls ++ [call] })

/-- The `for (i ...)` loop of the round robin over the entries of `current_queue` that
are still to be visited; returns those entries as the loop leaves them. -/
def rr_pass (time_slice : Int) : List Job → RRState → List Job × RRState
  | [], s => ([], s)
  | queued :: rest, s =>
    let visited := rr_visit time_slice queued s
    let later := rr_pass time_slice rest visited.2
    (visited.1 :: later.1, later.2)

/-- The loop `while (jobs_in_queue > 0)`; `fuel` bounds the number of iterations and
`none` stands for a loop that has not ended within `fuel` iterations. -/
def rr_cycle (time_slice : Int) : Nat → List Job → RRState → Option RRState
  | 0, _, s => if s.jobs_in_queue > 0 then none else some s
  | fuel + 1, current_queue, s =>
    if s.jobs_in_queue > 0 then
      let pass := rr_pass time_slice current_queue s
      rr_cycle time_slice fuel pass.1 pass.2
    else some s

/-- The main loop `while (jobs_remaining > 0)` of `priority_rr`; `fuel` bounds its
iterations and `inner` those of each round robin loop. -/
def rr_main (time_slice : Int) (inner : Nat) : Nat → RRState → Option RRState
  | 0, s => if s.jobs_remaining > 0 then none else some s
  | fuel + 1, s =>
    if s.jobs_remaining > 0 then
      let highest_priority := find_highest_priority s.active_jobs INT_MAX
      let current_queue :=
        qsort compare_jobs_by_idx (build_queue s.active_jobs highest_priority)
      match rr_cycle time_slice inner current_queue
          { s with jobs_in_queue := current_queue.length } with
      | none => none
      | some s' => rr_main time_slice inner fuel s'
    else some s

/-- Embedding of `priority_rr`, with a bound `fuel` on the iterations of each of its
`while` loops; the array `jobs` of `n_jobs` elements is a list of that length. -/
def priority_rr (fuel : Nat) (jobs : List Job) (time_slice : Int) : Option RRState :=
  rr_main time_slice fuel fuel ⟨jobs, jobs.length, 0, []⟩

/-- The run time a list of calls gives to the job with index `idx`, in total. -/
def run_total (idx : Int) (calls : List Call) : Int :=
  ((calls.filter (fun c => decide (c.job.idx = idx))).map Call.run_time).sum

/-- A job of the input array as a list of calls leaves it: its `time` less the run
time the calls gave it. -/
def Job.after (calls : List Call) (job : Job) : Job :=
  { job with time := job.time - run_total job.idx calls }

/-- The call that runs a job next, after the given calls, for one time slice or what is
left of the job. -/
def next_call (time_slice : Int) (calls : List Call) (job : Job) : Call :=
  ⟨job.after calls,
    if (job.after calls).time < time_slice then (job.after calls).time else time_slice⟩

/-- The number of jobs of a list that have time left. -/
def left_count (l : List Job) : Int :=
  ((l.filter (fun job => decide (0 < job.time))).length : Int)

/-- The time left in a list of jobs, in total. -/
def left_total (l : List Job) : Int := (l.map Job.time).sum

/-- The call `c`, made after the calls `before`, is in order for the input array `jobs`:
it runs a job of the array, as the earlier calls left it, for the lesser of its time
left and the time slice, which is positive, and every job with a strictly smaller
priority number has been given all of its time. -/
def GoodCall (jobs : List Job) (time_slice : Int) (before : List Call) (c : Call) : Prop :=
  ∃ job ∈ jobs, c.job = job.after before ∧
    c.run_time = min c.job.time time_slice ∧ 0 < c.run_time ∧
    ∀ other ∈ jobs, other.priority < job.priority →
      run_total other.idx before = other.time

/-- Every call of a list is in order after the calls before it. -/
def ValidCalls (jobs : List Job) (time_slice : Int) (calls : List Call) : Prop :=
  ∀ before c later, calls = before ++ c :: later → GoodCall jobs time_slice before c

/-- Invariant of the loops of `priority_rr` on the input array `jobs`: `active_jobs` is
the input as the calls so far have left it, no job was given more than its time,
`jobs_remaining` counts the jobs with time left, and the calls so far are in order. -/
structure RRInv (jobs : List Job) (time_slice : Int) (s : RRState) : Prop where
  active_eq : s.active_jobs = jobs.map (Job.after s.calls)
  bounded : ∀ job ∈ jobs, run_total job.idx s.calls ≤ job.time
  remaining_eq : s.jobs_remaining = left_count s.active_jobs
  valid : ValidCalls jobs time_slice s.calls

/-- Every job with a priority number below `level` has been given all of its time. -/
def LowDone (jobs : List Job) (level : Int) (calls : List Call) : Prop :=
  ∀ other ∈ jobs, other.priority < level → run_total other.idx calls = other.time

/-- The job of the input array that a list of calls has left as `job`: the inverse of
`Job.after`. -/
def Job.before (calls : List Call) (job : Job) : Job :=
  { job with time := job.time + run_total job.idx calls }

/-- Jobs for the examples: priorities 2, 1, 1 and times 3, 5, 2. -/
def jobs_fixture : List Job := [Job.mk 0 2 3, Job.mk 1 1 5, Job.mk 2 1 2]

/-! ## Lemmas on machine integers -/

theorem wrap32_of_range (x : Int) (h0 : -2147483648 ≤ x) (h1 : x < 2147483648) :
    wrap32 x = x := by
  unfold wrap32
  omega

theorem log2Fuel_two_pow (fuel b : Nat) (h : b < fuel) : log2Fuel fuel (2 ^ b) = b := by
  induction fuel generalizing b with
  | zero => omega
  | succ f ih =>
    cases b with
    | zero => simp [log2Fuel]
    | succ c =>
      have h2 : ¬ (2 ^ (c + 1) < 2) := by
        have : 1 ≤ 2 ^ c := Nat.one_le_two_pow
        rw [pow_succ]; omega
      have h3 : 2 ^ (c + 1) / 2 = 2 ^ c := by
        rw [pow_succ]; exact Nat.mul_div_cancel _ (by decide)
      simp only [log2Fuel, h2, if_false, h3]
      rw [ih c (by omega)]

theorem log2_int_two_pow (b : Nat) (hb : b ≤ 30) : log2_int (2 ^ b) = b := by
  unfold log2_int
  have : ((2 : Int) ^ b).toNat = 2 ^ b := by
    have : ((2 : Int) ^ b) = ((2 ^ b : Nat) : Int) := by push_cast; rfl
    rw [this, Int.toNat_natCast]
  rw [this]
  exact log2Fuel_two_pow 31 b (by omega)

theorem two_pow_le_of_le_30 (b : Nat) (hb : b ≤ 30) : (2 : Int) ^ b ≤ 1073741824 := by
  have h : (2 : Int) ^ b ≤ 2 ^ 30 := pow_le_pow_right₀ (by norm_num) hb
  norm_num at h
  exact h

theorem two_pow_pos_int (b : Nat) : (0 : Int) < 2 ^ b := by positivity

/-- On a non-negative `int`, masking with `2^b - 1` is the remainder modulo `2^b`. -/
theorem land_mask_eq_emod (a : Int) (h0 : 0 ≤ a) (b : Nat) :
    Int.land a (2 ^ b - 1) = a % 2 ^ b := by
  obtain ⟨n, rfl⟩ := Int.eq_ofNat_of_zero_le h0
  have hm : ((2 : Int) ^ b - 1) = ((2 ^ b - 1 : Nat) : Int) := by
    have : 1 ≤ 2 ^ b := Nat.one_le_two_pow
    push_cast [Nat.cast_sub this]
    rfl
  rw [hm]
  show ((n &&& (2 ^ b - 1) : Nat) : Int) = _
  rw [Nat.and_pow_two_sub_one_eq_mod]
  push_cast
  rfl

/-- On a non-negative `int`, the right shift by `b` is the quotient by `2^b`. -/
theorem shiftRight_eq_ediv (a : Int) (h0 : 0 ≤ a) (b : Nat) : a >>> b = a / 2 ^ b := by
  obtain ⟨n, rfl⟩ := Int.eq_ofNat_of_zero_le h0
  show ((n >>> b : Nat) : Int) = _
  rw [Nat.shiftRight_eq_div_pow]
  push_cast
  rfl

/-- A multiple of `2^b` and a value below `2^b` have no common bit. -/
theorem lor_eq_add (q r : Int) (b : Nat) (hq : 0 ≤ q) (hr0 : 0 ≤ r) (hr : r < 2 ^ b) :
    Int.lor (q * 2 ^ b) r = q * 2 ^ b + r := by
  obtain ⟨m, rfl⟩ := Int.eq_ofNat_of_zero_le hq
  obtain ⟨n, rfl⟩ := Int.eq_ofNat_of_zero_le hr0
  have hn : n < 2 ^ b := by exact_mod_cast hr
  have hm : ((m : Int) * 2 ^ b) = ((2 ^ b * m : Nat) : Int) := by push_cast; ring
  rw [hm]
  show ((2 ^ b * m ||| n : Nat) : Int) = _
  rw [← Nat.mul_add_lt_is_or hn m]
  push_cast
  rfl

/-! ## Lemmas on the address arithmetic -/

theorem split_virtual_address_two_pow (b : Nat) (hb : b ≤ 30) (a : Int) :
    split_virtual_address a (2 ^ b) = some (a >>> b, Int.land a (2 ^ b - 1)) := by
  have hpos := two_pow_pos_int b
  have hle := two_pow_le_of_le_30 b hb
  unfold split_virtual_address
  rw [if_neg (by omega), log2_int_two_pow b hb, wrap32_of_range _ (by omega) (by omega)]

theorem get_physical_address_two_pow (b : Nat) (hb : b ≤ 30) (PFN offset : Int) :
    get_physical_address PFN offset (2 ^ b) = some (Int.lor (shl32 PFN b) offset) := by
  have hpos := two_pow_pos_int b
  unfold get_physical_address
  rw [if_neg (by omega), log2_int_two_pow b hb]

theorem split_VPN_nonneg (VPN k : Int) (hk : 1 ≤ k) (hv : 0 ≤ VPN) :
    split_VPN VPN k = some (VPN % k, VPN / k) := by
  unfold split_VPN
  have h : ¬ (k = 0 ∨ (VPN = INT_MIN ∧ k = -1)) := by omega
  rw [if_neg h, Int.tmod_eq_emod hv (by omega), Int.tdiv_eq_ediv hv (by omega)]

/-! ## Theorems on the address arithmetic -/

/-- C2: for a page size `2^b` that fits an `int` (`b <= 30`) and a non-negative `int`
address `a`, `split_virtual_address` returns a pair `(vpn, offset)` and
`get_physical_address` on that pair returns `a`. -/
theorem split_join_round_trip (b : Nat) (hb : b ≤ 30) (a : Int) (h0 : 0 ≤ a)
    (h1 : a < 2147483648) :
    (split_virtual_address a (2 ^ b)).bind
      (fun p => get_physical_address p.1 p.2 (2 ^ b)) = some a := by
  have hpos := two_pow_pos_int b
  rw [split_virtual_address_two_pow b hb, Option.some_bind,
    get_physical_address_two_pow b hb, land_mask_eq_emod a h0, shiftRight_eq_ediv a h0]
  have hq : 0 ≤ a / 2 ^ b := Int.ediv_nonneg h0 hpos.le
  have hr0 : 0 ≤ a % 2 ^ b := Int.emod_nonneg a hpos.ne.symm
  have hr : a % 2 ^ b < 2 ^ b := Int.emod_lt_of_pos a hpos
  have hsum : a / 2 ^ b * 2 ^ b + a % 2 ^ b = a := by
    rw [mul_comm]; exact Int.ediv_add_emod a (2 ^ b)
  have hprod : 0 ≤ a / 2 ^ b * 2 ^ b := mul_nonneg hq hpos.le
  show some (Int.lor (shl32 (a / 2 ^ b) b) (a % 2 ^ b)) = some a
  unfold shl32
  rw [wrap32_of_range _ (by omega) (by omega), lor_eq_add _ _ b hq hr0 hr, hsum]

theorem split_join_round_trip_witness :
    (split_virtual_address 4660 (2 ^ 12)).bind
      (fun p => get_physical_address p.1 p.2 (2 ^ 12)) = some 4660 :=
  split_join_round_trip 12 (by decide) 4660 (by decide) (by decide)

/-- C3: for a page size `2^b` (`b <= 30`) and a non-negative address `a`,
`split_virtual_address` returns `offset = a & (page_size - 1) = a mod page_size` and
`vpn = a >> log2(page_size) = a div page_size`, with `0 <= offset < page_size`; page size
4096 and address 0x1234 give VPN 0x1 and offset 0x234. -/
theorem split_virtual_address_spec (b : Nat) (hb : b ≤ 30) (a : Int) (h0 : 0 ≤ a) :
    (∃ vpn offset, split_virtual_address a (2 ^ b) = some (vpn, offset) ∧
      offset = Int.land a (2 ^ b - 1) ∧ offset = a % 2 ^ b ∧
      vpn = a >>> log2_int (2 ^ b) ∧ vpn = a / 2 ^ b ∧
      0 ≤ offset ∧ offset < 2 ^ b) ∧
    split_virtual_address 0x1234 4096 = some (0x1, 0x234) := by
  have hpos := two_pow_pos_int b
  refine ⟨⟨a >>> b, Int.land a (2 ^ b - 1), split_virtual_address_two_pow b hb a, rfl,
    land_mask_eq_emod a h0 b, ?_, shiftRight_eq_ediv a h0 b, ?_, ?_⟩, by decide⟩
  · rw [log2_int_two_pow b hb]
  · rw [land_mask_eq_emod a h0]; exact Int.emod_nonneg a hpos.ne.symm
  · rw [land_mask_eq_emod a h0]; exact Int.emod_lt_of_pos a hpos

theorem split_virtual_address_spec_witness :
    (∃ vpn offset, split_virtual_address 74565 (2 ^ 8) = some (vpn, offset) ∧
      offset = Int.land 74565 (2 ^ 8 - 1) ∧ offset = 74565 % 2 ^ 8 ∧
      vpn = 74565 >>> log2_int (2 ^ 8) ∧ vpn = 74565 / 2 ^ 8 ∧
      0 ≤ offset ∧ offset < 2 ^ 8) ∧
    split_virtual_address 0x1234 4096 = some (0x1, 0x234) :=
  split_virtual_address_spec 8 (by decide) 74565 (by decide)

/-- C4: for `k >= 1` and a non-negative VPN, `split_VPN` returns `index = VPN mod k` and
`tag = VPN div k`; these recombine as `tag * k + index = VPN`, the index lies in
`0 <= index < k`, every one of the `k` indices occurs, and `k = 4`, VPN 9 give index 1
and tag 2. -/
theorem split_VPN_spec (k VPN : Int) (hk : 1 ≤ k) (hv : 0 ≤ VPN) :
    (∃ index tag, split_VPN VPN k = some (index, tag) ∧
      index = VPN % k ∧ tag = VPN / k ∧ tag * k + index = VPN ∧
      0 ≤ index ∧ index < k) ∧
    (∀ i : Int, 0 ≤ i → i < k → ∃ tag, split_VPN i k = some (i, tag)) ∧
    split_VPN 9 4 = some (1, 2) := by
  have hk0 : k ≠ 0 := by omega
  refine ⟨⟨VPN % k, VPN / k, split_VPN_nonneg VPN k hk hv, rfl, rfl, ?_,
    Int.emod_nonneg VPN hk0, Int.emod_lt_of_pos VPN (by omega)⟩, ?_, by decide⟩
  · rw [mul_comm]; exact Int.ediv_add_emod VPN k
  · intro i hi0 hik
    refine ⟨i / k, ?_⟩
    rw [split_VPN_nonneg i k hk hi0, Int.emod_eq_of_lt hi0 hik]

theorem split_VPN_spec_witness :
    (∃ index tag, split_VPN 23 5 = some (index, tag) ∧
      index = 23 % 5 ∧ tag = 23 / 5 ∧ tag * 5 + index = 23 ∧
      0 ≤ index ∧ index < 5) ∧
    (∀ i : Int, 0 ≤ i → i < 5 → ∃ tag, split_VPN i 5 = some (i, tag)) ∧
    split_VPN 9 4 = some (1, 2) :=
  split_VPN_spec 5 23 (by decide) (by decide)

/-! ## Lemmas on the lookups -/

theorem split_VPN_of_pos (VPN k : Int) (hk : 1 ≤ k) :
    split_VPN VPN k = some (Int.tmod VPN k, Int.tdiv VPN k) := by
  unfold split_VPN
  have h : ¬ (k = 0 ∨ (VPN = INT_MIN ∧ k = -1)) := by omega
  rw [if_neg h]

theorem table_lookup_absent (table : PageTable) (tlb : TLB) (VPN : Int)
    (h : table.entries VPN = none) :
    table_lookup table tlb VPN = ⟨segmentation_fault, table.walked, tlb⟩ := by
  simp only [table_lookup, PageTable.lookup, PageTable.walked, h]

theorem table_lookup_invalid (table : PageTable) (tlb : TLB) (VPN : Int) (e : PTE)
    (h : table.entries VPN = some e) (hv : e.valid_bit = 0) :
    table_lookup table tlb VPN = ⟨segmentation_fault, table.walked, tlb⟩ := by
  simp only [table_lookup, PageTable.lookup, PageTable.walked, h, hv, if_true]

theorem table_lookup_protected (table : PageTable) (tlb : TLB) (VPN : Int) (e : PTE)
    (h : table.entries VPN = some e) (hv : e.valid_bit ≠ 0) (hp : e.protect_bit = 1) :
    table_lookup table tlb VPN = ⟨protection_fault, table.walked, tlb⟩ := by
  simp only [table_lookup, PageTable.lookup, PageTable.walked, h, hv, hp, if_true, if_false]

theorem table_lookup_not_present (table : PageTable) (tlb : TLB) (VPN : Int) (e : PTE)
    (h : table.entries VPN = some e) (hv : e.valid_bit ≠ 0) (hp : e.protect_bit ≠ 1)
    (hr : e.present_bit = 0) :
    table_lookup table tlb VPN = ⟨page_fault, table.walked, tlb⟩ := by
  simp only [table_lookup, PageTable.lookup, PageTable.walked, h, hv, hp, hr, if_true,
    if_false]

theorem table_lookup_success (table : PageTable) (tlb : TLB) (VPN : Int) (e : PTE)
    (h : table.entries VPN = some e) (hv : e.valid_bit ≠ 0) (hp : e.protect_bit ≠ 1)
    (hr : e.present_bit ≠ 0) :
    table_lookup table tlb VPN =
      ⟨Except.ok e.PFN, table.walked,
        tlb.add_entry (Int.tmod VPN tlb.k) (Int.tdiv VPN tlb.k) e⟩ := by
  simp only [table_lookup, PageTable.lookup, PageTable.walked, h, hv, hp, hr, if_false,
    split_VPN_of_pos VPN tlb.k tlb.k_pos]

/-- Every call of `table_lookup` looks the page table up once and leaves its entries. -/
theorem table_lookup_table (table : PageTable) (tlb : TLB) (VPN : Int) :
    (table_lookup table tlb VPN).table = table.walked := by
  cases h : table.entries VPN with
  | none => rw [table_lookup_absent table tlb VPN h]
  | some e =>
    by_cases hv : e.valid_bit = 0
    · rw [table_lookup_invalid table tlb VPN e h hv]
    · by_cases hp : e.protect_bit = 1
      · rw [table_lookup_protected table tlb VPN e h hv hp]
      · by_cases hr : e.present_bit = 0
        · rw [table_lookup_not_present table tlb VPN e h hv hp hr]
        · rw [table_lookup_success table tlb VPN e h hv hp hr]

/-- A successful `table_lookup` read a valid, unprotected, present entry. -/
theorem table_lookup_ok_inv (table : PageTable) (tlb : TLB) (VPN f : Int)
    (h : (table_lookup table tlb VPN).result = Except.ok f) :
    ∃ e, table.entries VPN = some e ∧ e.valid_bit ≠ 0 ∧ e.protect_bit ≠ 1 ∧
      e.present_bit ≠ 0 ∧ e.PFN = f := by
  cases he : table.entries VPN with
  | none =>
    rw [table_lookup_absent table tlb VPN he] at h
    simp [segmentation_fault] at h
  | some e =>
    by_cases hv : e.valid_bit = 0
    · rw [table_lookup_invalid table tlb VPN e he hv] at h
      simp [segmentation_fault] at h
    · by_cases hp : e.protect_bit = 1
      · rw [table_lookup_protected table tlb VPN e he hv hp] at h
        simp [protection_fault] at h
      · by_cases hr : e.present_bit = 0
        · rw [table_lookup_not_present table tlb VPN e he hv hp hr] at h
          simp [page_fault] at h
        · rw [table_lookup_success table tlb VPN e he hv hp hr] at h
          exact ⟨e, rfl, hv, hp, hr, by simpa using h⟩

theorem TLB_lookup_eq (tlb : TLB) (VPN : Int) :
    TLB_lookup tlb VPN =
      match tlb.lookup (Int.tmod VPN tlb.k) (Int.tdiv VPN tlb.k) with
      | none => Except.error Signal.TLB_MISS
      | some entry => if entry.protect_bit = 1 then protection_fault else Except.ok entry.PFN := by
  simp only [TLB_lookup, split_VPN_of_pos VPN tlb.k tlb.k_pos]

/-- Reading a set right after `add_entry` finds the entry just stored. -/
theorem lookup_add_entry (tlb : TLB) (index tag : Int) (e : PTE) :
    (tlb.add_entry index tag e).lookup index tag = some e := by
  obtain ⟨n, hn⟩ : ∃ n, tlb.ways = n + 1 := ⟨tlb.ways - 1, by have := tlb.ways_pos; omega⟩
  simp [TLB.lookup, TLB.add_entry, hn, List.take_succ_cons, List.find?_cons]

theorem add_entry_k (tlb : TLB) (index tag : Int) (e : PTE) :
    (tlb.add_entry index tag e).k = tlb.k := rfl

/-- After a successful `table_lookup` for a VPN, `TLB_lookup` of that VPN on the
resulting TLB returns the same frame number. -/
theorem TLB_lookup_after_table_lookup (table : PageTable) (tlb : TLB) (VPN f : Int)
    (h : (table_lookup table tlb VPN).result = Except.ok f) :
    TLB_lookup (table_lookup table tlb VPN).tlb VPN = Except.ok f := by
  obtain ⟨e, he, hv, hp, hr, hf⟩ := table_lookup_ok_inv table tlb VPN f h
  rw [table_lookup_success table tlb VPN e he hv hp hr, TLB_lookup_eq]
  simp only [add_entry_k, lookup_add_entry, hp, if_false, hf]

theorem virtual_to_physical_hit (a ps : Int) (tlb : TLB) (table : PageTable)
    (VPN offset PFN : Int) (hs : split_virtual_address a ps = some (VPN, offset))
    (hl : TLB_lookup tlb VPN = Except.ok PFN) :
    virtual_to_physical a ps tlb table = ⟨return_physical PFN offset ps, table, tlb⟩ := by
  simp only [virtual_to_physical, hs, hl]

theorem virtual_to_physical_raise (a ps : Int) (tlb : TLB) (table : PageTable)
    (VPN offset : Int) (signal : Signal)
    (hs : split_virtual_address a ps = some (VPN, offset))
    (hl : TLB_lookup tlb VPN = Except.error signal) (hm : signal ≠ Signal.TLB_MISS) :
    virtual_to_physical a ps tlb table = ⟨Except.error signal, table, tlb⟩ := by
  cases signal <;> simp_all [virtual_to_physical]

theorem virtual_to_physical_miss (a ps : Int) (tlb : TLB) (table : PageTable)
    (VPN offset : Int) (hs : split_virtual_address a ps = some (VPN, offset))
    (hl : TLB_lookup tlb VPN = Except.error Signal.TLB_MISS) :
    virtual_to_physical a ps tlb table =
      ⟨match (table_lookup table tlb VPN).result with
        | Except.ok PFN => return_physical PFN offset ps
        | Except.error signal => Except.error signal,
       (table_lookup table tlb VPN).table, (table_lookup table tlb VPN).tlb⟩ := by
  simp only [virtual_to_physical, hs, hl]
  cases (table_lookup table tlb VPN).result <;> rfl

theorem return_physical_two_pow (b : Nat) (hb : b ≤ 30) (PFN offset : Int) :
    return_physical PFN offset (2 ^ b) = Except.ok (Int.lor (shl32 PFN b) offset) := by
  simp only [return_physical, get_physical_address_two_pow b hb]

theorem TLB_lookup_cases (tlb : TLB) (VPN : Int) :
    (∃ f, TLB_lookup tlb VPN = Except.ok f) ∨
    TLB_lookup tlb VPN = Except.error Signal.PROTECTION_FAULT ∨
    TLB_lookup tlb VPN = Except.error Signal.TLB_MISS := by
  rw [TLB_lookup_eq]
  cases tlb.lookup (Int.tmod VPN tlb.k) (Int.tdiv VPN tlb.k) with
  | none => exact Or.inr (Or.inr rfl)
  | some e =>
    by_cases hp : e.protect_bit = 1
    · exact Or.inr (Or.inl (by simp [hp, protection_fault]))
    · exact Or.inl ⟨e.PFN, by simp [hp]⟩

/-! ## Theorems on the lookups and the translation pipeline -/

/-- C1: fault policy of `table_lookup`, for every page table, TLB and VPN: no entry, or
an entry with `valid_bit == 0`, gives SegmentationFault; otherwise `protect_bit == 1`
gives ProtectionFault, whatever `present_bit` is; otherwise `present_bit == 0` gives
PageFault; otherwise the call returns the entry's PFN. -/
theorem table_lookup_fault_policy (table : PageTable) (tlb : TLB) (VPN : Int) :
    (table.entries VPN = none →
      (table_lookup table tlb VPN).result = Except.error Signal.SEGMENTATION_FAULT) ∧
    (∀ e, table.entries VPN = some e →
      (e.valid_bit = 0 →
        (table_lookup table tlb VPN).result = Except.error Signal.SEGMENTATION_FAULT) ∧
      (e.valid_bit ≠ 0 → e.protect_bit = 1 →
        (table_lookup table tlb VPN).result = Except.error Signal.PROTECTION_FAULT) ∧
      (e.valid_bit ≠ 0 → e.protect_bit ≠ 1 → e.present_bit = 0 →
        (table_lookup table tlb VPN).result = Except.error Signal.PAGE_FAULT) ∧
      (e.valid_bit ≠ 0 → e.protect_bit ≠ 1 → e.present_bit ≠ 0 →
        (table_lookup table tlb VPN).result = Except.ok e.PFN)) := by
  refine ⟨fun h => ?_, fun e h => ⟨fun hv => ?_, fun hv hp => ?_, fun hv hp hr => ?_,
    fun hv hp hr => ?_⟩⟩
  · rw [table_lookup_absent table tlb VPN h]; rfl
  · rw [table_lookup_invalid table tlb VPN e h hv]; rfl
  · rw [table_lookup_protected table tlb VPN e h hv hp]; rfl
  · rw [table_lookup_not_present table tlb VPN e h hv hp hr]; rfl
  · rw [table_lookup_success table tlb VPN e h hv hp hr]

/-- C8: three-way outcome of `TLB_lookup`, with `(index, tag) = split_VPN(VPN, tlb.k)`:
if set `index` holds no entry with that tag the outcome is the miss signal; if the
lookup finds a matching entry of the set, the outcome is ProtectionFault (and no frame
number) when its `protect_bit == 1`, and its PFN otherwise; and the lookup finds an
entry whenever the set holds one with that tag. -/
theorem TLB_lookup_three_way (tlb : TLB) (VPN index tag : Int)
    (hs : split_VPN VPN tlb.k = some (index, tag)) :
    ((∀ s ∈ tlb.sets index, s.tag ≠ tag) →
      TLB_lookup tlb VPN = Except.error Signal.TLB_MISS) ∧
    (∀ e, tlb.lookup index tag = some e →
      TLBEntry.mk tag e ∈ tlb.sets index ∧
      (e.protect_bit = 1 → TLB_lookup tlb VPN = Except.error Signal.PROTECTION_FAULT) ∧
      (e.protect_bit ≠ 1 → TLB_lookup tlb VPN = Except.ok e.PFN)) ∧
    ((∃ s ∈ tlb.sets index, s.tag = tag) → ∃ e, tlb.lookup index tag = some e) := by
  refine ⟨fun hno => ?_, fun e he => ⟨?_, fun hp => ?_, fun hp => ?_⟩, fun hex => ?_⟩
  · have hnone : tlb.lookup index tag = none := by
      simp only [TLB.lookup, Option.map_eq_none', List.find?_eq_none]
      intro s hmem
      simpa using hno s hmem
    simp only [TLB_lookup, hs, hnone]
  · simp only [TLB.lookup, Option.map_eq_some'] at he
    obtain ⟨s, hfind, hse⟩ := he
    have hmem := List.mem_of_find?_eq_some hfind
    have htag : s.tag = tag := by simpa using List.find?_some hfind
    have : s = TLBEntry.mk tag e := by
      cases s
      simp_all
    rw [← this]; exact hmem
  · simp only [TLB_lookup, hs, he, hp, if_true, protection_fault]
  · simp only [TLB_lookup, hs, he, hp, if_false]
  · obtain ⟨s, hmem, htag⟩ := hex
    cases hl : tlb.lookup index tag with
    | some e => exact ⟨e, rfl⟩
    | none =>
      simp only [TLB.lookup, Option.map_eq_none', List.find?_eq_none] at hl
      have := hl s hmem
      simp [htag] at this

theorem table_lookup_fault_policy_witness :
    (table_lookup table_fixture tlb_cold 3).result = Except.error Signal.PROTECTION_FAULT :=
  ((table_lookup_fault_policy table_fixture tlb_cold 3).2 (PTE.mk 7 1 0 1) rfl).2.1
    (by decide) (by decide)

theorem TLB_lookup_three_way_witness :
    split_VPN 6 tlb_warm.k = some (2, 1) ∧
    tlb_warm.lookup 2 1 = some (PTE.mk 8 1 1 1) ∧
    TLB_lookup tlb_warm 6 = Except.error Signal.PROTECTION_FAULT :=
  ⟨by decide, by decide,
    ((TLB_lookup_three_way tlb_warm 6 2 1 (by decide)).2.1 (PTE.mk 8 1 1 1)
      (by decide)).2.1 (by decide)⟩

/-- C5: for a page size `2^b` (`b <= 30`) and an address `a` with
`(VPN, offset) = split_virtual_address(a, page_size)`: if the VPN misses the TLB and its
page table entry is valid, not protected and present with frame number `f`, then
`virtual_to_physical` returns `(f << log2(page_size)) | (a & (page_size - 1))`; if the TLB
holds an unprotected entry with frame number `f` for the VPN, it returns the same
expression with that `f`. -/
theorem virtual_to_physical_value (b : Nat) (hb : b ≤ 30) (a : Int) (tlb : TLB)
    (table : PageTable) :
    ∃ VPN offset, split_virtual_address a (2 ^ b) = some (VPN, offset) ∧
    (∀ e, TLB_lookup tlb VPN = Except.error Signal.TLB_MISS →
      table.entries VPN = some e → e.valid_bit ≠ 0 → e.protect_bit ≠ 1 →
      e.present_bit ≠ 0 →
      (virtual_to_physical a (2 ^ b) tlb table).result =
        Except.ok (Int.lor (shl32 e.PFN (log2_int (2 ^ b))) (Int.land a (2 ^ b - 1)))) ∧
    (∀ index tag e, split_VPN VPN tlb.k = some (index, tag) →
      tlb.lookup index tag = some e → e.protect_bit ≠ 1 →
      (virtual_to_physical a (2 ^ b) tlb table).result =
        Except.ok (Int.lor (shl32 e.PFN (log2_int (2 ^ b))) (Int.land a (2 ^ b - 1)))) := by
  have hs := split_virtual_address_two_pow b hb a
  refine ⟨_, _, hs, fun e hmiss he hv hp hr => ?_, fun index tag e hsp hl hp => ?_⟩
  · rw [virtual_to_physical_miss a (2 ^ b) tlb table _ _ hs hmiss,
      table_lookup_success table tlb _ e he hv hp hr, log2_int_two_pow b hb]
    exact return_physical_two_pow b hb _ _
  · have hhit : TLB_lookup tlb (a >>> b) = Except.ok e.PFN := by
      simp only [TLB_lookup, hsp, hl, hp, if_false]
    rw [virtual_to_physical_hit a (2 ^ b) tlb table _ _ _ hs hhit, log2_int_two_pow b hb]
    exact return_physical_two_pow b hb _ _

theorem virtual_to_physical_value_witness :
    ∃ VPN offset, split_virtual_address 4660 (2 ^ 12) = some (VPN, offset) ∧
    (∀ e, TLB_lookup tlb_cold VPN = Except.error Signal.TLB_MISS →
      table_fixture.entries VPN = some e → e.valid_bit ≠ 0 → e.protect_bit ≠ 1 →
      e.present_bit ≠ 0 →
      (virtual_to_physical 4660 (2 ^ 12) tlb_cold table_fixture).result =
        Except.ok (Int.lor (shl32 e.PFN (log2_int (2 ^ 12))) (Int.land 4660 (2 ^ 12 - 1)))) ∧
    (∀ index tag e, split_VPN VPN tlb_cold.k = some (index, tag) →
      tlb_cold.lookup index tag = some e → e.protect_bit ≠ 1 →
      (virtual_to_physical 4660 (2 ^ 12) tlb_cold table_fixture).result =
        Except.ok (Int.lor (shl32 e.PFN (log2_int (2 ^ 12))) (Int.land 4660 (2 ^ 12 - 1)))) :=
  virtual_to_physical_value 12 (by decide) 4660 tlb_cold table_fixture

/-- C6: for every page table, TLB and VPN `v`, if `table_lookup(table, tlb, v)` returns
the frame number `f`, then `TLB_lookup(tlb, v)` on the TLB it leaves returns `f`; and a
`virtual_to_physical` that returned a physical address returns the same address when
repeated on the state it left, without a further page table lookup. -/
theorem table_lookup_warms_tlb (table : PageTable) (tlb : TLB) :
    (∀ v f, (table_lookup table tlb v).result = Except.ok f →
      TLB_lookup (table_lookup table tlb v).tlb v = Except.ok f) ∧
    (∀ a ps p, (virtual_to_physical a ps tlb table).result = Except.ok p →
      (virtual_to_physical a ps (virtual_to_physical a ps tlb table).tlb
        (virtual_to_physical a ps tlb table).table).result = Except.ok p ∧
      (virtual_to_physical a ps (virtual_to_physical a ps tlb table).tlb
        (virtual_to_physical a ps tlb table).table).table.lookups =
        (virtual_to_physical a ps tlb table).table.lookups) := by
  refine ⟨fun v f h => TLB_lookup_after_table_lookup table tlb v f h, fun a ps p h => ?_⟩
  cases hs : split_virtual_address a ps with
  | none => simp [virtual_to_physical, hs] at h
  | some vo =>
    obtain ⟨VPN, offset⟩ := vo
    rcases TLB_lookup_cases tlb VPN with ⟨f, hf⟩ | hprot | hmiss
    · rw [virtual_to_physical_hit a ps tlb table VPN offset f hs hf] at h ⊢
      rw [virtual_to_physical_hit a ps tlb table VPN offset f hs hf]
      exact ⟨h, rfl⟩
    · rw [virtual_to_physical_raise a ps tlb table VPN offset _ hs hprot (by decide)] at h
      simp at h
    · rw [virtual_to_physical_miss a ps tlb table VPN offset hs hmiss] at h ⊢
      cases hr : (table_lookup table tlb VPN).result with
      | error signal => simp [hr] at h
      | ok f =>
        simp only [hr] at h ⊢
        have hwarm := TLB_lookup_after_table_lookup table tlb VPN f hr
        rw [virtual_to_physical_hit a ps _ _ VPN offset f hs hwarm]
        exact ⟨h, rfl⟩

/-- C7: for a call of `virtual_to_physical` whose address splits into `(VPN, offset)`:
the TLB lookup of the VPN is a hit with a frame, a ProtectionFault, or a miss; on a
hit or a ProtectionFault the page table is looked up zero times and the result and the
TLB left behind are the same for every page table; on a miss the page table is looked
up exactly once. -/
theorem page_table_walks (a ps : Int) (tlb : TLB) (table : PageTable) (VPN offset : Int)
    (hs : split_virtual_address a ps = some (VPN, offset)) :
    ((∃ f, TLB_lookup tlb VPN = Except.ok f) ∨
      TLB_lookup tlb VPN = Except.error Signal.PROTECTION_FAULT ∨
      TLB_lookup tlb VPN = Except.error Signal.TLB_MISS) ∧
    ((∃ f, TLB_lookup tlb VPN = Except.ok f) ∨
      TLB_lookup tlb VPN = Except.error Signal.PROTECTION_FAULT →
      (virtual_to_physical a ps tlb table).table.lookups = table.lookups ∧
      (virtual_to_physical a ps tlb table).table.entries = table.entries ∧
      ∀ other : PageTable,
        (virtual_to_physical a ps tlb other).result =
          (virtual_to_physical a ps tlb table).result ∧
        (virtual_to_physical a ps tlb other).tlb =
          (virtual_to_physical a ps tlb table).tlb) ∧
    (TLB_lookup tlb VPN = Except.error Signal.TLB_MISS →
      (virtual_to_physical a ps tlb table).table.lookups = table.lookups + 1 ∧
      (virtual_to_physical a ps tlb table).table.entries = table.entries) := by
  refine ⟨TLB_lookup_cases tlb VPN, fun hhit => ?_, fun hmiss => ?_⟩
  · rcases hhit with ⟨f, hf⟩ | hprot
    · refine ⟨?_, ?_, fun other => ?_⟩
      · rw [virtual_to_physical_hit a ps tlb table VPN offset f hs hf]
      · rw [virtual_to_physical_hit a ps tlb table VPN offset f hs hf]
      · rw [virtual_to_physical_hit a ps tlb table VPN offset f hs hf,
          virtual_to_physical_hit a ps tlb other VPN offset f hs hf]
        exact ⟨rfl, rfl⟩
    · refine ⟨?_, ?_, fun other => ?_⟩
      · rw [virtual_to_physical_raise a ps tlb table VPN offset _ hs hprot (by decide)]
      · rw [virtual_to_physical_raise a ps tlb table VPN offset _ hs hprot (by decide)]
      · rw [virtual_to_physical_raise a ps tlb table VPN offset _ hs hprot (by decide),
          virtual_to_physical_raise a ps tlb other VPN offset _ hs hprot (by decide)]
        exact ⟨rfl, rfl⟩
  · rw [virtual_to_physical_miss a ps tlb table VPN offset hs hmiss]
    simp only [table_lookup_table]
    exact ⟨rfl, rfl⟩

theorem page_table_walks_witness :
    ((∃ f, TLB_lookup tlb_warm 1 = Except.ok f) ∨
      TLB_lookup tlb_warm 1 = Except.error Signal.PROTECTION_FAULT ∨
      TLB_lookup tlb_warm 1 = Except.error Signal.TLB_MISS) ∧
    ((∃ f, TLB_lookup tlb_warm 1 = Except.ok f) ∨
      TLB_lookup tlb_warm 1 = Except.error Signal.PROTECTION_FAULT →
      (virtual_to_physical 4660 4096 tlb_warm table_fixture).table.lookups =
        table_fixture.lookups ∧
      (virtual_to_physical 4660 4096 tlb_warm table_fixture).table.entries =
        table_fixture.entries ∧
      ∀ other : PageTable,
        (virtual_to_physical 4660 4096 tlb_warm other).result =
          (virtual_to_physical 4660 4096 tlb_warm table_fixture).result ∧
        (virtual_to_physical 4660 4096 tlb_warm other).tlb =
          (virtual_to_physical 4660 4096 tlb_warm table_fixture).tlb) ∧
    (TLB_lookup tlb_warm 1 = Except.error Signal.TLB_MISS →
      (virtual_to_physical 4660 4096 tlb_warm table_fixture).table.lookups =
        table_fixture.lookups + 1 ∧
      (virtual_to_physical 4660 4096 tlb_warm table_fixture).table.entries =
        table_fixture.entries) :=
  page_table_walks 4660 4096 tlb_warm table_fixture 1 564 (by decide)

theorem table_lookup_warms_tlb_witness :
    TLB_lookup (table_lookup table_fixture tlb_cold 1).tlb 1 = Except.ok 5 :=
  (table_lookup_warms_tlb table_fixture tlb_cold).1 1 5 (by decide)

/-! ## Lemmas on the replacement policies -/

/-- The loop of `lru` counts one frame per node, as long as the count fits an `int`. -/
theorem lru_loop_count (rest : List Frame) :
    ∀ (position : Nat) (min_idx : Int) (lru_frame : Nat) (frames_accessed : Int),
      0 ≤ frames_accessed → frames_accessed + rest.length < 2147483648 →
      (lru_loop rest position min_idx lru_frame frames_accessed).2 =
        frames_accessed + rest.length := by
  induction rest with
  | nil => intro position min_idx lru_frame fa _ _; simp [lru_loop]
  | cons c next ih =>
    intro position min_idx lru_frame fa h0 h1
    simp only [List.length_cons, Nat.cast_add, Nat.cast_one] at h1
    have hw : wrap32 (fa + 1) = fa + 1 := wrap32_of_range _ (by omega) (by omega)
    unfold lru_loop
    split
    · rw [hw, ih _ _ _ _ (by omega) (by omega)]
      simp only [List.length_cons, Nat.cast_add, Nat.cast_one]; ring
    · rw [hw, ih _ _ _ _ (by omega) (by omega)]
      simp only [List.length_cons, Nat.cast_add, Nat.cast_one]; ring

/-- Invariant of the loop of `lru`: `lru_frame` is the first node among the nodes seen so
far that carries the least `idx` seen so far, which is `min_idx`. -/
theorem lru_loop_inv (l rest : List Frame) :
    ∀ (pre : List Frame) (min_idx : Int) (lru_frame : Nat) (frames_accessed : Int),
      l = pre ++ rest →
      (∃ fp, l[lru_frame]? = some fp ∧ fp.idx = min_idx) →
      (∀ g ∈ pre, min_idx ≤ g.idx) →
      (∀ q g, q < lru_frame → l[q]? = some g → min_idx < g.idx) →
      ∃ f, l[(lru_loop rest pre.length min_idx lru_frame frames_accessed).1]? = some f ∧
        (∀ g ∈ l, f.idx ≤ g.idx) ∧
        (∀ q g, q < (lru_loop rest pre.length min_idx lru_frame frames_accessed).1 →
          l[q]? = some g → f.idx < g.idx) := by
  induction rest with
  | nil =>
    intro pre min_idx lru_frame fa hl hp hmin hfirst
    obtain ⟨fp, hfp, hidx⟩ := hp
    simp only [List.append_nil] at hl
    refine ⟨fp, by simpa [lru_loop] using hfp, ?_, ?_⟩
    · intro g hg; rw [hidx]; exact hmin g (hl ▸ hg)
    · intro q g hq hg; rw [hidx]; exact hfirst q g (by simpa [lru_loop] using hq) hg
  | cons c next ih =>
    intro pre min_idx lru_frame fa hl hp hmin hfirst
    have hl2 : l = (pre ++ [c]) ++ next := by rw [hl]; simp
    have hlen : (pre ++ [c]).length = pre.length + 1 := by simp
    have hc : l[pre.length]? = some c := by
      rw [hl, List.getElem?_append_right (le_refl _), Nat.sub_self]
      exact List.getElem?_cons_zero
    unfold lru_loop
    split
    · rename_i hlt
      rw [← hlen]
      apply ih (pre ++ [c]) c.idx pre.length _ hl2 ⟨c, hc, rfl⟩
      · intro g hg
        rcases List.mem_append.mp hg with hgp | hgc
        · have := hmin g hgp; omega
        · simp only [List.mem_singleton] at hgc; rw [hgc]
      · intro q g hq hg
        have hgp : g ∈ pre := by
          rw [hl, List.getElem?_append_left hq] at hg
          exact List.getElem?_mem hg
        have := hmin g hgp; omega
    · rename_i hge
      rw [← hlen]
      apply ih (pre ++ [c]) min_idx lru_frame _ hl2 hp
      · intro g hg
        rcases List.mem_append.mp hg with hgp | hgc
        · exact hmin g hgp
        · simp only [List.mem_singleton] at hgc; rw [hgc]; omega
      · exact hfirst

/-! ## Theorems on the replacement policies -/

/-- C9: for every non-empty list of resident frames, `fifo` selects the head of the list
(position 0, the frame inserted earliest) and returns 1; the outcome is the same for
every list of that length, whatever the `idx` and `clock_bit` values are; for frames
`[F0, F1, F2]` it selects `F0`. -/
theorem fifo_selects_head (active_frames : List Frame) (h : active_frames ≠ []) :
    fifo active_frames = ⟨1, some 0⟩ ∧
    active_frames[0]? = active_frames.head? ∧
    (∀ other : List Frame, other.length = active_frames.length →
      fifo other = fifo active_frames) ∧
    (∀ F0 F1 F2 : Frame, fifo [F0, F1, F2] = ⟨1, some 0⟩ ∧ [F0, F1, F2][0]? = some F0) := by
  cases active_frames with
  | nil => exact absurd rfl h
  | cons c next =>
    refine ⟨rfl, (List.head?_eq_getElem? _).symm, fun other ho => ?_,
      fun _ _ _ => ⟨rfl, List.getElem?_cons_zero⟩⟩
    cases other with
    | nil => simp at ho
    | cons _ _ => rfl

theorem fifo_selects_head_witness :
    fifo [Frame.mk 7 1, Frame.mk 3 0] = ⟨1, some 0⟩ ∧
    [Frame.mk 7 1, Frame.mk 3 0][0]? = [Frame.mk 7 1, Frame.mk 3 0].head? ∧
    (∀ other : List Frame, other.length = [Frame.mk 7 1, Frame.mk 3 0].length →
      fifo other = fifo [Frame.mk 7 1, Frame.mk 3 0]) ∧
    (∀ F0 F1 F2 : Frame, fifo [F0, F1, F2] = ⟨1, some 0⟩ ∧ [F0, F1, F2][0]? = some F0) :=
  fifo_selects_head [Frame.mk 7 1, Frame.mk 3 0] (by decide)

/-- C10: for every non-empty list of `n` resident frames (`n` an `int` value), `lru`
returns `n` and selects a frame of the list whose `idx` is the least `idx` of the whole
list; every frame before the selected one has a strictly greater `idx` (the first of
the frames sharing the minimum), so with pairwise distinct markers no other frame has
the selected `idx`; markers `[5, 2, 9]` select the second frame. -/
theorem lru_selects_first_minimum (active_frames : List Frame) (h : active_frames ≠ [])
    (hn : active_frames.length < 2147483648) :
    (∃ victim f, lru active_frames = ⟨active_frames.length, some victim⟩ ∧
      active_frames[victim]? = some f ∧
      (∀ g ∈ active_frames, f.idx ≤ g.idx) ∧
      (∀ q g, q < victim → active_frames[q]? = some g → f.idx < g.idx) ∧
      ((active_frames.map Frame.idx).Nodup →
        ∀ q g, active_frames[q]? = some g → g.idx = f.idx → q = victim)) ∧
    (∀ c0 c1 c2 : Int, lru [Frame.mk 5 c0, Frame.mk 2 c1, Frame.mk 9 c2] = ⟨3, some 1⟩) := by
  refine ⟨?_, fun _ _ _ => by simp [lru, lru_loop, wrap32]⟩
  cases hl : active_frames with
  | nil => exact absurd hl h
  | cons c next =>
    rw [← hl]
    have hc : active_frames[0]? = some c := by rw [hl]; exact List.getElem?_cons_zero
    obtain ⟨f, hf, hmin, hfirst⟩ :=
      lru_loop_inv active_frames active_frames [] c.idx 0 0 rfl ⟨c, hc, rfl⟩
        (fun g hg => by simp at hg) (fun q g hq => absurd hq (Nat.not_lt_zero q))
    have hcount := lru_loop_count active_frames 0 c.idx 0 0 (le_refl 0)
      (by simpa using (by exact_mod_cast hn : (active_frames.length : Int) < 2147483648))
    refine ⟨(lru_loop active_frames 0 c.idx 0 0).1, f, ?_, hf, hmin, hfirst, ?_⟩
    · have : lru active_frames =
          ⟨(lru_loop active_frames 0 c.idx 0 0).2,
            some (lru_loop active_frames 0 c.idx 0 0).1⟩ := by
        rw [hl]; rfl
      rw [this, hcount]; simp
    · intro hnd q g hg hidx
      have hf2 : active_frames[(lru_loop active_frames 0 c.idx 0 0).1]? = some f := hf
      have hq : q < (active_frames.map Frame.idx).length := by
        rw [List.length_map]; exact (List.getElem?_eq_some.mp hg).1
      have h1 : (active_frames.map Frame.idx)[q]? = some g.idx := by
        rw [List.getElem?_map, hg]; rfl
      have h2 : (active_frames.map Frame.idx)[(lru_loop active_frames 0 c.idx 0 0).1]? =
          some g.idx := by
        rw [List.getElem?_map, hf2, hidx]; rfl
      exact List.getElem?_inj hq hnd (h1.trans h2.symm)

theorem lru_selects_first_minimum_witness :
    ([Frame.mk 4 1, Frame.mk 1 0, Frame.mk 1 1, Frame.mk 8 0] ≠ [] ∧
      [Frame.mk 4 1, Frame.mk 1 0, Frame.mk 1 1, Frame.mk 8 0].length < 2147483648) ∧
    (∃ victim f,
      lru [Frame.mk 4 1, Frame.mk 1 0, Frame.mk 1 1, Frame.mk 8 0] =
        ⟨[Frame.mk 4 1, Frame.mk 1 0, Frame.mk 1 1, Frame.mk 8 0].length, some victim⟩ ∧
      [Frame.mk 4 1, Frame.mk 1 0, Frame.mk 1 1, Frame.mk 8 0][victim]? = some f ∧
      (∀ g ∈ [Frame.mk 4 1, Frame.mk 1 0, Frame.mk 1 1, Frame.mk 8 0], f.idx ≤ g.idx) ∧
      (∀ q g, q < victim →
        [Frame.mk 4 1, Frame.mk 1 0, Frame.mk 1 1, Frame.mk 8 0][q]? = some g →
        f.idx < g.idx)) ∧
    lru [Frame.mk 4 1, Frame.mk 1 0, Frame.mk 1 1, Frame.mk 8 0] = ⟨4, some 1⟩ :=
  ⟨⟨by decide, by decide⟩,
    (lru_selects_first_minimum [Frame.mk 4 1, Frame.mk 1 0, Frame.mk 1 1, Frame.mk 8 0]
      (by decide) (by decide)).1.imp
      (fun _ hv => hv.imp (fun _ hf => ⟨hf.1, hf.2.1, hf.2.2.1, hf.2.2.2.1⟩)),
    by decide⟩

/-! ## Lemmas on the clock policy -/

theorem set_append_cons (pre : List Frame) (c d : Frame) (next : List Frame) :
    (pre ++ c :: next).set pre.length d = pre ++ d :: next := by
  induction pre with
  | nil => rfl
  | cons a pre ih => simp only [List.cons_append, List.length_cons, List.set_cons_succ, ih]

theorem getElem?_append_cons (pre : List Frame) (c : Frame) (next : List Frame) :
    (pre ++ c :: next)[pre.length]? = some c := by
  rw [List.getElem?_append_right (le_refl _), Nat.sub_self]
  exact List.getElem?_cons_zero

/-- The sweep up to the first node whose `clock_bit` is 0: the loop, started at the
first node of `passed`, clears the bits of `passed` and returns at `victim`. -/
theorem clock_loop_found (passed : List Frame) :
    ∀ (pre : List Frame) (victim : Frame) (rest : List Frame) (fuel : Nat) (fa : Int),
      (∀ f ∈ passed, f.clock_bit ≠ 0) → victim.clock_bit = 0 →
      passed.length < fuel → 0 ≤ fa → fa + passed.length + 1 < 2147483648 →
      clock_loop fuel (pre ++ passed ++ victim :: rest) pre.length fa =
        some ⟨fa + passed.length + 1, some (pre.length + passed.length),
          pre ++ passed.map Frame.reset ++ victim :: rest⟩ := by
  induction passed with
  | nil =>
    intro pre victim rest fuel fa _ hz hfuel h0 h1
    obtain ⟨g, rfl⟩ : ∃ g, fuel = g + 1 := ⟨fuel - 1, by simp at hfuel; omega⟩
    simp only [List.length_nil, Nat.cast_zero, add_zero] at h1
    simp only [clock_loop, List.append_nil, getElem?_append_cons, hz, if_true,
      wrap32_of_range _ (by omega : -2147483648 ≤ fa + 1) h1, List.length_nil,
      Nat.cast_zero, add_zero, List.map_nil]
  | cons c passed ih =>
    intro pre victim rest fuel fa hnz hz hfuel h0 h1
    simp only [List.length_cons, Nat.cast_add, Nat.cast_one] at h1 hfuel
    obtain ⟨g, rfl⟩ : ∃ g, fuel = g + 1 := ⟨fuel - 1, by omega⟩
    have hc : c.clock_bit ≠ 0 := hnz c (List.mem_cons_self _ _)
    have hshape : pre ++ c :: passed ++ victim :: rest =
        pre ++ c :: (passed ++ victim :: rest) := by simp
    have hlen : ¬ (pre.length + 1 = (pre ++ c :: (passed ++ victim :: rest)).length) := by
      simp only [List.length_append, List.length_cons]; omega
    have hw : wrap32 (fa + 1) = fa + 1 := wrap32_of_range _ (by omega) (by omega)
    rw [hshape]
    simp only [clock_loop, getElem?_append_cons, hc, if_false, set_append_cons, hlen, hw]
    have hstep := ih (pre ++ [c.reset]) victim rest g (fa + 1)
      (fun f hf => hnz f (List.mem_cons_of_mem _ hf)) hz (by omega) (by omega) (by omega)
    simp only [List.length_append, List.length_singleton, List.append_assoc,
      List.singleton_append, List.cons_append, List.nil_append] at hstep
    rw [hstep]
    simp only [List.length_cons, Nat.cast_add, Nat.cast_one, List.map_cons,
      List.append_assoc, List.cons_append, ClockResult.mk.injEq, Option.some.injEq]
    refine ⟨by ring, by omega, trivial⟩

/-- The sweep over a list without a node whose `clock_bit` is 0: the loop clears every
bit and is back at the head after one iteration per node. -/
theorem clock_loop_sweep (passed : List Frame) :
    ∀ (pre : List Frame) (fuel : Nat) (fa : Int),
      passed ≠ [] → (∀ f ∈ passed, f.clock_bit ≠ 0) →
      0 ≤ fa → fa + passed.length < 2147483648 →
      clock_loop (fuel + passed.length) (pre ++ passed) pre.length fa =
        clock_loop fuel (pre ++ passed.map Frame.reset) 0 (fa + passed.length) := by
  induction passed with
  | nil => intro pre fuel fa hne; exact absurd rfl hne
  | cons c passed ih =>
    intro pre fuel fa _ hnz h0 h1
    simp only [List.length_cons, Nat.cast_add, Nat.cast_one] at h1
    have hc : c.clock_bit ≠ 0 := hnz c (List.mem_cons_self _ _)
    have hw : wrap32 (fa + 1) = fa + 1 := wrap32_of_range _ (by omega) (by omega)
    have hfuel : fuel + (c :: passed).length = (fuel + passed.length) + 1 := by
      simp only [List.length_cons]; omega
    rw [hfuel]
    simp only [clock_loop, getElem?_append_cons, hc, if_false, set_append_cons, hw]
    cases hp : passed with
    | nil =>
      simp only [List.length_append, List.length_cons, List.length_nil, if_true,
        Nat.add_zero, zero_add, List.map_cons, List.map_nil, Nat.cast_zero, add_zero,
        Nat.cast_one]
    | cons d more =>
      have hlen : ¬ (pre.length + 1 = (pre ++ c :: d :: more).length) := by
        simp only [List.length_append, List.length_cons]; omega
      rw [if_neg hlen]
      have hstep := ih (pre ++ [c.reset]) fuel (fa + 1) (by rw [hp]; simp)
        (fun f hf => hnz f (List.mem_cons_of_mem _ hf)) (by omega) (by omega)
      rw [hp] at hstep
      simp only [List.length_append, List.length_singleton, List.append_assoc,
        List.singleton_append, List.cons_append, List.nil_append] at hstep
      rw [hstep]
      simp only [List.length_cons, Nat.cast_add, Nat.cast_one, List.map_cons]
      congr 1
      ring

theorem clock_lru_fuel_cons (fuel : Nat) (l : List Frame) (h : l ≠ []) :
    clock_lru_fuel fuel l = clock_loop fuel l 0 0 := by
  cases l with
  | nil => exact absurd rfl h
  | cons c next => rfl

/-- A list with a node whose `clock_bit` is 0 splits at the first such node. -/
theorem exists_first_clear (l : List Frame) (h : ∃ f ∈ l, f.clock_bit = 0) :
    ∃ passed victim rest, l = passed ++ victim :: rest ∧
      (∀ f ∈ passed, f.clock_bit ≠ 0) ∧ victim.clock_bit = 0 := by
  induction l with
  | nil => obtain ⟨f, hf, _⟩ := h; simp at hf
  | cons c next ih =>
    by_cases hc : c.clock_bit = 0
    · exact ⟨[], c, next, rfl, fun f hf => by simp at hf, hc⟩
    · obtain ⟨f, hf, hfz⟩ := h
      have hmem : f ∈ next := by
        rcases List.mem_cons.mp hf with rfl | hm
        · exact absurd hfz hc
        · exact hm
      obtain ⟨passed, victim, rest, hl, hnz, hz⟩ := ih ⟨f, hmem, hfz⟩
      refine ⟨c :: passed, victim, rest, by rw [hl]; rfl, ?_, hz⟩
      intro g hg
      rcases List.mem_cons.mp hg with rfl | hm
      · exact hc
      · exact hnz g hm

/-- Outcome of `clock_lru` on a list that splits at its first node with `clock_bit` 0. -/
theorem clock_lru_fuel_found (passed : List Frame) (victim : Frame) (rest : List Frame)
    (fuel : Nat) (hnz : ∀ f ∈ passed, f.clock_bit ≠ 0) (hz : victim.clock_bit = 0)
    (hfuel : passed.length < fuel) (hn : (passed.length : Int) + 1 < 2147483648) :
    clock_lru_fuel fuel (passed ++ victim :: rest) =
      some ⟨passed.length + 1, some passed.length,
        passed.map Frame.reset ++ victim :: rest⟩ := by
  rw [clock_lru_fuel_cons fuel _ (by simp)]
  have h := clock_loop_found passed [] victim rest fuel 0 hnz hz hfuel (le_refl 0)
    (by omega)
  simpa using h

/-- Outcome of `clock_lru` on a list without a node with `clock_bit` 0. -/
theorem clock_lru_fuel_all_set (l : List Frame) (fuel : Nat) (hne : l ≠ [])
    (hnz : ∀ f ∈ l, f.clock_bit ≠ 0) (hfuel : l.length < fuel)
    (hn : (l.length : Int) + 1 < 2147483648) :
    clock_lru_fuel fuel l = some ⟨l.length + 1, some 0, l.map Frame.reset⟩ := by
  rw [clock_lru_fuel_cons fuel l hne]
  obtain ⟨g, rfl⟩ : ∃ g, fuel = (g + 1) + l.length := ⟨fuel - l.length - 1, by omega⟩
  have h := clock_loop_sweep l [] (g + 1) 0 hne hnz (le_refl 0) (by omega)
  simp only [List.nil_append, List.length_nil, zero_add] at h
  rw [h]
  cases l with
  | nil => exact absurd rfl hne
  | cons c next =>
    have hw : wrap32 (((c :: next).length : Int) + 1) = ((c :: next).length : Int) + 1 :=
      wrap32_of_range _ (by omega) hn
    simp only [clock_loop, List.map_cons, List.getElem?_cons_zero, Frame.reset, if_true, hw]

theorem map_idx_reset (l : List Frame) : (l.map Frame.reset).map Frame.idx = l.map Frame.idx := by
  rw [List.map_map]
  rfl

theorem getElem?_map_reset (l : List Frame) (q : Nat) (f : Frame)
    (h : (l.map Frame.reset)[q]? = some f) : f.clock_bit = 0 := by
  rw [List.getElem?_map] at h
  cases hq : l[q]? with
  | none => rw [hq] at h; simp at h
  | some g =>
    rw [hq] at h
    simp only [Option.map_some', Option.some.injEq] at h
    rw [← h]; rfl

/-! ## Theorems on the clock policy -/

/-- C11: for every list of resident frames (of an `int` length) in which some frame has
`clock_bit == 0`, `clock_lru` selects the first frame in list order whose `clock_bit` is
0 and returns `p + 1`, where `p` is the number of frames before it; reference bits
`[1, 1, 0]` select the third frame with 3 frames examined. -/
theorem clock_selects_first_clear (active_frames : List Frame)
    (hz : ∃ f ∈ active_frames, f.clock_bit = 0)
    (hn : active_frames.length < 2147483648) :
    (∃ p victim r, clock_lru active_frames = some r ∧
      r.frame_to_remove = some p ∧ r.frames_accessed = p + 1 ∧
      active_frames[p]? = some victim ∧ victim.clock_bit = 0 ∧
      (∀ q g, q < p → active_frames[q]? = some g → g.clock_bit ≠ 0)) ∧
    (∀ i0 i1 i2 : Int,
      clock_lru [Frame.mk i0 1, Frame.mk i1 1, Frame.mk i2 0] =
        some ⟨3, some 2, [Frame.mk i0 0, Frame.mk i1 0, Frame.mk i2 0]⟩) := by
  refine ⟨?_, fun _ _ _ => by
    simp [clock_lru, clock_lru_fuel, clock_loop, wrap32, Frame.reset]⟩
  obtain ⟨passed, victim, rest, hl, hnz, hvz⟩ := exists_first_clear active_frames hz
  have hlen : active_frames.length = passed.length + rest.length + 1 := by
    rw [hl]; simp only [List.length_append, List.length_cons]; omega
  refine ⟨passed.length, victim,
    ⟨passed.length + 1, some passed.length, passed.map Frame.reset ++ victim :: rest⟩,
    ?_, rfl, rfl, ?_, hvz, ?_⟩
  · unfold clock_lru
    rw [hl]
    exact clock_lru_fuel_found passed victim rest _ hnz hvz
      (by simp only [List.length_append, List.length_cons]; omega) (by omega)
  · rw [hl]; exact getElem?_append_cons passed victim rest
  · intro q g hq hg
    rw [hl, List.getElem?_append_left hq] at hg
    exact hnz g (List.getElem?_mem hg)

theorem clock_selects_first_clear_witness :
    (∃ p victim r, clock_lru [Frame.mk 3 1, Frame.mk 4 0, Frame.mk 5 0] = some r ∧
      r.frame_to_remove = some p ∧ r.frames_accessed = p + 1 ∧
      [Frame.mk 3 1, Frame.mk 4 0, Frame.mk 5 0][p]? = some victim ∧ victim.clock_bit = 0 ∧
      (∀ q g, q < p → [Frame.mk 3 1, Frame.mk 4 0, Frame.mk 5 0][q]? = some g →
        g.clock_bit ≠ 0)) ∧
    (∀ i0 i1 i2 : Int,
      clock_lru [Frame.mk i0 1, Frame.mk i1 1, Frame.mk i2 0] =
        some ⟨3, some 2, [Frame.mk i0 0, Frame.mk i1 0, Frame.mk i2 0]⟩) :=
  clock_selects_first_clear [Frame.mk 3 1, Frame.mk 4 0, Frame.mk 5 0]
    ⟨Frame.mk 4 0, by decide, rfl⟩ (by decide)

/-- C12, as stated, fails: on three frames whose reference bits are all 1, `clock_lru`
reports 4 frames examined, not 3. -/
theorem clock_all_referenced_counterexample :
    clock_lru [Frame.mk 10 1, Frame.mk 11 1, Frame.mk 12 1] =
      some ⟨4, some 0, [Frame.mk 10 0, Frame.mk 11 0, Frame.mk 12 0]⟩ ∧
    (4 : Int) ≠ ([Frame.mk 10 1, Frame.mk 11 1, Frame.mk 12 1].length : Int) := by
  decide

/-- C12, amended: for every list of `n >= 1` resident frames whose reference bits are
all 1, `clock_lru` makes one full sweep that clears all `n` bits, selects the head of
the list on the second pass, and reports `n + 1` frames examined. -/
theorem clock_all_referenced (active_frames : List Frame) (hne : active_frames ≠ [])
    (hall : ∀ f ∈ active_frames, f.clock_bit = 1)
    (hn : (active_frames.length : Int) + 1 < 2147483648) :
    clock_lru active_frames =
      some ⟨active_frames.length + 1, some 0, active_frames.map Frame.reset⟩ ∧
    (∀ f ∈ active_frames.map Frame.reset, f.clock_bit = 0) := by
  refine ⟨clock_lru_fuel_all_set active_frames _ hne
    (fun f hf => by rw [hall f hf]; decide) (Nat.lt_succ_self _) hn, ?_⟩
  intro f hf
  obtain ⟨g, _, rfl⟩ := List.mem_map.mp hf
  rfl

theorem clock_all_referenced_witness :
    clock_lru [Frame.mk 10 1, Frame.mk 11 1] =
      some ⟨([Frame.mk 10 1, Frame.mk 11 1].length : Int) + 1, some 0,
        [Frame.mk 10 1, Frame.mk 11 1].map Frame.reset⟩ ∧
    (∀ f ∈ [Frame.mk 10 1, Frame.mk 11 1].map Frame.reset, f.clock_bit = 0) :=
  clock_all_referenced [Frame.mk 10 1, Frame.mk 11 1] (by decide) (by decide) (by decide)

/-- C13: for every non-empty list of resident frames, after `clock_lru` has returned:
every frame the cursor passed over before it reached the victim (the positions `q` with
`q + 1 < frames_accessed`) has `clock_bit == 0`, the victim has `clock_bit == 0`, every
frame the cursor never visited (the positions from `frames_accessed` on) is as it was,
and the list keeps its length, its order and every `idx`. -/
theorem clock_bit_clearing (active_frames : List Frame) (hne : active_frames ≠ [])
    (hn : (active_frames.length : Int) + 1 < 2147483648) :
    ∃ r victim, clock_lru active_frames = some r ∧ r.frame_to_remove = some victim ∧
      (∃ f, r.frames[victim]? = some f ∧ f.clock_bit = 0) ∧
      (∀ (q : Nat) (f : Frame), (q : Int) + 1 < r.frames_accessed → r.frames[q]? = some f →
        f.clock_bit = 0) ∧
      (∀ q : Nat, r.frames_accessed ≤ (q : Int) → r.frames[q]? = active_frames[q]?) ∧
      r.frames.length = active_frames.length ∧
      r.frames.map Frame.idx = active_frames.map Frame.idx := by
  by_cases hz : ∃ f ∈ active_frames, f.clock_bit = 0
  · obtain ⟨passed, v, rest, hl, hnz, hvz⟩ := exists_first_clear active_frames hz
    have hlen : active_frames.length = passed.length + rest.length + 1 := by
      rw [hl]; simp only [List.length_append, List.length_cons]; omega
    have hrl : (passed.map Frame.reset).length = passed.length := List.length_map _ _
    refine ⟨⟨passed.length + 1, some passed.length,
      passed.map Frame.reset ++ v :: rest⟩, passed.length, ?_, rfl, ⟨v, ?_, hvz⟩, ?_, ?_,
      ?_, ?_⟩
    · unfold clock_lru
      rw [hl]
      exact clock_lru_fuel_found passed v rest _ hnz hvz
        (by simp only [List.length_append, List.length_cons]; omega) (by omega)
    · show (passed.map Frame.reset ++ v :: rest)[passed.length]? = some v
      rw [← hrl]; exact getElem?_append_cons _ v rest
    · intro q f hq hf
      have hq2 : q < (passed.map Frame.reset).length := by
        rw [hrl]
        have : (q : Int) + 1 < (passed.length : Int) + 1 := hq
        omega
      have hf2 : (passed.map Frame.reset ++ v :: rest)[q]? = some f := hf
      rw [List.getElem?_append_left hq2] at hf2
      exact getElem?_map_reset passed q f hf2
    · intro q hq
      have hq2 : passed.length ≤ q := by
        have : (passed.length : Int) + 1 ≤ (q : Int) := hq
        omega
      show (passed.map Frame.reset ++ v :: rest)[q]? = active_frames[q]?
      rw [hl, List.getElem?_append_right (by rw [hrl]; exact hq2),
        List.getElem?_append_right hq2, hrl]
    · show (passed.map Frame.reset ++ v :: rest).length = active_frames.length
      rw [hl]; simp
    · show (passed.map Frame.reset ++ v :: rest).map Frame.idx = active_frames.map Frame.idx
      rw [hl, List.map_append, List.map_append, map_idx_reset]
  · have hnz : ∀ f ∈ active_frames, f.clock_bit ≠ 0 := fun f hf h0 => hz ⟨f, hf, h0⟩
    have hrl : (active_frames.map Frame.reset).length = active_frames.length :=
      List.length_map _ _
    refine ⟨⟨active_frames.length + 1, some 0, active_frames.map Frame.reset⟩, 0,
      clock_lru_fuel_all_set active_frames _ hne hnz (Nat.lt_succ_self _) hn, rfl, ?_,
      ?_, ?_, hrl, map_idx_reset active_frames⟩
    · cases active_frames with
      | nil => exact absurd rfl hne
      | cons c next => exact ⟨c.reset, List.getElem?_cons_zero, rfl⟩
    · intro q f _ hf
      exact getElem?_map_reset active_frames q f hf
    · intro q hq
      have hq2 : active_frames.length ≤ q := by
        have : (active_frames.length : Int) + 1 ≤ (q : Int) := hq
        omega
      show (active_frames.map Frame.reset)[q]? = active_frames[q]?
      rw [List.getElem?_eq_none (by rw [hrl]; exact hq2), List.getElem?_eq_none hq2]

theorem clock_bit_clearing_witness :
    ∃ r victim, clock_lru [Frame.mk 3 1, Frame.mk 4 0, Frame.mk 5 1] = some r ∧
      r.frame_to_remove = some victim ∧
      (∃ f, r.frames[victim]? = some f ∧ f.clock_bit = 0) ∧
      (∀ (q : Nat) (f : Frame), (q : Int) + 1 < r.frames_accessed → r.frames[q]? = some f →
        f.clock_bit = 0) ∧
      (∀ q : Nat, r.frames_accessed ≤ (q : Int) →
        r.frames[q]? = [Frame.mk 3 1, Frame.mk 4 0, Frame.mk 5 1][q]?) ∧
      r.frames.length = [Frame.mk 3 1, Frame.mk 4 0, Frame.mk 5 1].length ∧
      r.frames.map Frame.idx = [Frame.mk 3 1, Frame.mk 4 0, Frame.mk 5 1].map Frame.idx :=
  clock_bit_clearing [Frame.mk 3 1, Frame.mk 4 0, Frame.mk 5 1] (by decide) (by decide)

/-- C14: on the empty list of resident frames each of `fifo`, `lru` and `clock_lru`
stores `NULL` (no frame) and returns 0, as an ordinary return; for `clock_lru` this holds
whatever the bound on its loop is. -/
theorem empty_resident_set :
    fifo [] = ⟨0, none⟩ ∧ lru [] = ⟨0, none⟩ ∧ clock_lru [] = some ⟨0, none, []⟩ ∧
    (∀ fuel, clock_lru_fuel fuel [] = some ⟨0, none, []⟩) :=
  ⟨rfl, rfl, rfl, fun _ => rfl⟩

/-- C18: for every non-empty list of `n` resident frames (with `n + 1` an `int` value)
and every assignment of clock bits, the loop of `clock_lru` returns within `n + 1`
iterations, with the same outcome for every larger bound; it selects a frame of the
list and reports a number of frames examined between 1 and `n + 1`. -/
theorem clock_terminates (active_frames : List Frame) (hne : active_frames ≠ [])
    (hn : (active_frames.length : Int) + 1 < 2147483648) :
    ∃ r victim, clock_lru active_frames = some r ∧
      (∀ fuel, active_frames.length + 1 ≤ fuel → clock_lru_fuel fuel active_frames = some r) ∧
      r.frame_to_remove = some victim ∧ victim < active_frames.length ∧
      1 ≤ r.frames_accessed ∧ r.frames_accessed ≤ (active_frames.length : Int) + 1 := by
  by_cases hz : ∃ f ∈ active_frames, f.clock_bit = 0
  · obtain ⟨passed, v, rest, hl, hnz, hvz⟩ := exists_first_clear active_frames hz
    have hlen : active_frames.length = passed.length + rest.length + 1 := by
      rw [hl]; simp only [List.length_append, List.length_cons]; omega
    refine ⟨⟨passed.length + 1, some passed.length,
      passed.map Frame.reset ++ v :: rest⟩, passed.length, ?_, ?_, rfl, by omega, ?_, ?_⟩
    · unfold clock_lru
      rw [hl]
      exact clock_lru_fuel_found passed v rest _ hnz hvz
        (by simp only [List.length_append, List.length_cons]; omega) (by omega)
    · intro fuel hfuel
      rw [hl]
      exact clock_lru_fuel_found passed v rest fuel hnz hvz (by omega) (by omega)
    · show (1 : Int) ≤ (passed.length : Int) + 1
      omega
    · show (passed.length : Int) + 1 ≤ (active_frames.length : Int) + 1
      omega
  · have hnz : ∀ f ∈ active_frames, f.clock_bit ≠ 0 := fun f hf h0 => hz ⟨f, hf, h0⟩
    have hpos : 0 < active_frames.length := List.length_pos.mpr hne
    refine ⟨⟨active_frames.length + 1, some 0, active_frames.map Frame.reset⟩, 0,
      clock_lru_fuel_all_set active_frames _ hne hnz (Nat.lt_succ_self _) hn,
      fun fuel hfuel => clock_lru_fuel_all_set active_frames fuel hne hnz (by omega) hn,
      rfl, hpos, ?_, le_refl _⟩
    show (1 : Int) ≤ (active_frames.length : Int) + 1
    omega

theorem clock_terminates_witness :
    ∃ r victim, clock_lru [Frame.mk 3 1, Frame.mk 4 1] = some r ∧
      (∀ fuel, [Frame.mk 3 1, Frame.mk 4 1].length + 1 ≤ fuel →
        clock_lru_fuel fuel [Frame.mk 3 1, Frame.mk 4 1] = some r) ∧
      r.frame_to_remove = some victim ∧ victim < [Frame.mk 3 1, Frame.mk 4 1].length ∧
      1 ≤ r.frames_accessed ∧
      r.frames_accessed ≤ ([Frame.mk 3 1, Frame.mk 4 1].length : Int) + 1 :=
  clock_terminates [Frame.mk 3 1, Frame.mk 4 1] (by decide) (by decide)

/-! ## Theorems on the fault order of the translation pipeline -/

theorem return_physical_of_split (a ps VPN offset PFN : Int)
    (hs : split_virtual_address a ps = some (VPN, offset)) :
    ∃ p, return_physical PFN offset ps = Except.ok p := by
  have hps : ¬ ps ≤ 0 := by
    intro h
    simp [split_virtual_address, h] at hs
  refine ⟨Int.lor (shl32 PFN (log2_int ps)) offset, ?_⟩
  simp only [return_physical, get_physical_address, if_neg hps]

theorem virtual_to_physical_miss_error (a ps : Int) (tlb : TLB) (table : PageTable)
    (VPN offset : Int) (signal : Signal)
    (hs : split_virtual_address a ps = some (VPN, offset))
    (hmiss : TLB_lookup tlb VPN = Except.error Signal.TLB_MISS)
    (hw : (table_lookup table tlb VPN).result = Except.error signal) :
    (virtual_to_physical a ps tlb table).result = Except.error signal := by
  rw [virtual_to_physical_miss a ps tlb table VPN offset hs hmiss]
  simp only [hw]

/-- C15, as stated, fails: with VPN 7 absent from the page table and a TLB miss,
`virtual_to_physical` raises SegmentationFault, not PageFault. -/
theorem absent_entry_counterexample :
    split_virtual_address 28672 4096 = some (7, 0) ∧
    table_fixture.entries 7 = none ∧
    TLB_lookup tlb_cold 7 = Except.error Signal.TLB_MISS ∧
    (virtual_to_physical 28672 4096 tlb_cold table_fixture).result =
      Except.error Signal.SEGMENTATION_FAULT ∧
    (virtual_to_physical 28672 4096 tlb_cold table_fixture).result ≠
      Except.error Signal.PAGE_FAULT := by
  decide

/-- C15, amended: when the page table has no entry for a VPN and the TLB misses,
translation raises SegmentationFault (and therefore not PageFault). -/
theorem absent_entry_segmentation_fault (a ps : Int) (tlb : TLB) (table : PageTable)
    (VPN offset : Int) (hs : split_virtual_address a ps = some (VPN, offset))
    (hmiss : TLB_lookup tlb VPN = Except.error Signal.TLB_MISS)
    (habsent : table.entries VPN = none) :
    (virtual_to_physical a ps tlb table).result = Except.error Signal.SEGMENTATION_FAULT ∧
    (virtual_to_physical a ps tlb table).result ≠ Except.error Signal.PAGE_FAULT := by
  have h : (virtual_to_physical a ps tlb table).result =
      Except.error Signal.SEGMENTATION_FAULT :=
    virtual_to_physical_miss_error a ps tlb table VPN offset _ hs hmiss
      (by rw [table_lookup_absent table tlb VPN habsent]; rfl)
  exact ⟨h, by rw [h]; decide⟩

theorem absent_entry_segmentation_fault_witness :
    (virtual_to_physical 28672 4096 tlb_cold table_empty).result =
      Except.error Signal.SEGMENTATION_FAULT ∧
    (virtual_to_physical 28672 4096 tlb_cold table_empty).result ≠
      Except.error Signal.PAGE_FAULT :=
  absent_entry_segmentation_fault 28672 4096 tlb_cold table_empty 7 0 (by decide)
    (by decide) rfl

/-- C16, as stated, fails: for the page table entry of VPN 5, which has
`protect_bit == 1` and `valid_bit == 0`, translation after a TLB miss raises
SegmentationFault, not ProtectionFault. -/
theorem fault_order_counterexample :
    split_virtual_address 20480 4096 = some (5, 0) ∧
    table_fixture.entries 5 = some (PTE.mk 3 0 0 1) ∧
    TLB_lookup tlb_cold 5 = Except.error Signal.TLB_MISS ∧
    (virtual_to_physical 20480 4096 tlb_cold table_fixture).result =
      Except.error Signal.SEGMENTATION_FAULT ∧
    (virtual_to_physical 20480 4096 tlb_cold table_fixture).result ≠
      Except.error Signal.PROTECTION_FAULT := by
  decide

/-- C16, amended: the fault check order after a TLB miss is SegmentationFault (no entry,
or `valid_bit == 0`), then ProtectionFault, then PageFault, and a translation either
returns an address or raises exactly one of the three: an entry with `valid_bit == 0`
raises SegmentationFault whatever `protect_bit` and `present_bit` are, a valid entry with
`protect_bit == 1` raises ProtectionFault whatever `present_bit` is, and a valid
unprotected entry with `present_bit == 0` raises PageFault. -/
theorem fault_check_order (a ps : Int) (tlb : TLB) (table : PageTable) (VPN offset : Int)
    (hs : split_virtual_address a ps = some (VPN, offset))
    (hmiss : TLB_lookup tlb VPN = Except.error Signal.TLB_MISS) :
    (table.entries VPN = none →
      (virtual_to_physical a ps tlb table).result = Except.error Signal.SEGMENTATION_FAULT) ∧
    (∀ e, table.entries VPN = some e →
      (e.valid_bit = 0 →
        (virtual_to_physical a ps tlb table).result =
          Except.error Signal.SEGMENTATION_FAULT) ∧
      (e.valid_bit ≠ 0 → e.protect_bit = 1 →
        (virtual_to_physical a ps tlb table).result =
          Except.error Signal.PROTECTION_FAULT) ∧
      (e.valid_bit ≠ 0 → e.protect_bit ≠ 1 → e.present_bit = 0 →
        (virtual_to_physical a ps tlb table).result = Except.error Signal.PAGE_FAULT) ∧
      (e.valid_bit ≠ 0 → e.protect_bit ≠ 1 → e.present_bit ≠ 0 →
        ∃ p, (virtual_to_physical a ps tlb table).result = Except.ok p)) ∧
    ((∃ p, (virtual_to_physical a ps tlb table).result = Except.ok p) ∨
      (virtual_to_physical a ps tlb table).result = Except.error Signal.SEGMENTATION_FAULT ∨
      (virtual_to_physical a ps tlb table).result = Except.error Signal.PROTECTION_FAULT ∨
      (virtual_to_physical a ps tlb table).result = Except.error Signal.PAGE_FAULT) := by
  have herr := virtual_to_physical_miss_error a ps tlb table VPN offset
  have hseg0 : table.entries VPN = none →
      (virtual_to_physical a ps tlb table).result = Except.error Signal.SEGMENTATION_FAULT :=
    fun h => herr _ hs hmiss (by rw [table_lookup_absent table tlb VPN h]; rfl)
  have hseg : ∀ e, table.entries VPN = some e → e.valid_bit = 0 →
      (virtual_to_physical a ps tlb table).result = Except.error Signal.SEGMENTATION_FAULT :=
    fun e h hv => herr _ hs hmiss (by rw [table_lookup_invalid table tlb VPN e h hv]; rfl)
  have hprot : ∀ e, table.entries VPN = some e → e.valid_bit ≠ 0 → e.protect_bit = 1 →
      (virtual_to_physical a ps tlb table).result = Except.error Signal.PROTECTION_FAULT :=
    fun e h hv hp => herr _ hs hmiss
      (by rw [table_lookup_protected table tlb VPN e h hv hp]; rfl)
  have hpage : ∀ e, table.entries VPN = some e → e.valid_bit ≠ 0 → e.protect_bit ≠ 1 →
      e.present_bit = 0 →
      (virtual_to_physical a ps tlb table).result = Except.error Signal.PAGE_FAULT :=
    fun e h hv hp hr => herr _ hs hmiss
      (by rw [table_lookup_not_present table tlb VPN e h hv hp hr]; rfl)
  have hok : ∀ e, table.entries VPN = some e → e.valid_bit ≠ 0 → e.protect_bit ≠ 1 →
      e.present_bit ≠ 0 → ∃ p, (virtual_to_physical a ps tlb table).result = Except.ok p := by
    intro e h hv hp hr
    obtain ⟨p, hp2⟩ := return_physical_of_split a ps VPN offset e.PFN hs
    refine ⟨p, ?_⟩
    rw [virtual_to_physical_miss a ps tlb table VPN offset hs hmiss,
      table_lookup_success table tlb VPN e h hv hp hr]
    exact hp2
  refine ⟨hseg0, fun e h => ⟨hseg e h, hprot e h, hpage e h, hok e h⟩, ?_⟩
  cases h : table.entries VPN with
  | none => exact Or.inr (Or.inl (hseg0 h))
  | some e =>
    by_cases hv : e.valid_bit = 0
    · exact Or.inr (Or.inl (hseg e h hv))
    · by_cases hp : e.protect_bit = 1
      · exact Or.inr (Or.inr (Or.inl (hprot e h hv hp)))
      · by_cases hr : e.present_bit = 0
        · exact Or.inr (Or.inr (Or.inr (hpage e h hv hp hr)))
        · exact Or.inl (hok e h hv hp hr)

theorem fault_check_order_witness :
    (virtual_to_physical 20480 4096 tlb_cold table_fixture).result =
      Except.error Signal.SEGMENTATION_FAULT ∧
    (virtual_to_physical 12288 4096 tlb_cold table_fixture).result =
      Except.error Signal.PROTECTION_FAULT :=
  ⟨((fault_check_order 20480 4096 tlb_cold table_fixture 5 0 (by decide) (by decide)).2.1
      (PTE.mk 3 0 0 1) rfl).1 rfl,
    ((fault_check_order 12288 4096 tlb_cold table_fixture 3 0 (by decide) (by decide)).2.1
      (PTE.mk 7 1 0 1) rfl).2.1 (by decide) rfl⟩

/-! ## Lemmas on the scheduler -/

theorem compare_jobs_le_iff (a b : Job) :
    compare_jobs a b ≤ 0 ↔
      a.priority < b.priority ∨ (a.priority = b.priority ∧ a.idx ≤ b.idx) := by
  unfold compare_jobs
  split_ifs <;> constructor <;> intro h <;> omega

theorem qsort_perm (compar : Job → Job → Int) (base : List Job) :
    (qsort compar base).Perm base :=
  List.perm_insertionSort _ base

theorem qsort_compare_jobs_sorted (base : List Job) :
    List.Sorted (fun a b => compare_jobs a b ≤ 0) (qsort compare_jobs base) := by
  haveI : IsTotal Job (fun a b => compare_jobs a b ≤ 0) :=
    ⟨fun a b => by
      simp only [compare_jobs_le_iff]
      omega⟩
  haveI : IsTrans Job (fun a b => compare_jobs a b ≤ 0) :=
    ⟨fun a b c hab hbc => by
      simp only [compare_jobs_le_iff] at hab hbc ⊢
      omega⟩
  exact List.sorted_insertionSort _ base

/-! ## Theorems on the scheduler -/

/-- C17: for every array of jobs, `priority` calls `run_job` exactly once per job (the
jobs of the calls are a permutation of the input) with that job's full `time`, in
ascending order of the priority number with ties in ascending order of `idx`, and the
caller's array is as it was. -/
theorem priority_runs_sorted (jobs : List Job) :
    ((priority jobs).calls.map Call.job).Perm jobs ∧
    List.Sorted
      (fun a b => a.priority < b.priority ∨ (a.priority = b.priority ∧ a.idx ≤ b.idx))
      ((priority jobs).calls.map Call.job) ∧
    (∀ c ∈ (priority jobs).calls, c.run_time = c.job.time) ∧
    (priority jobs).calls.length = jobs.length ∧
    (priority jobs).jobs = jobs := by
  have hmap : (priority jobs).calls.map Call.job = qsort compare_jobs jobs := by
    simp only [priority, List.map_map]
    exact List.map_id _
  refine ⟨?_, ?_, ?_, ?_, rfl⟩
  · rw [hmap]; exact qsort_perm _ jobs
  · rw [hmap]
    exact (qsort_compare_jobs_sorted jobs).imp (fun h => (compare_jobs_le_iff _ _).mp h)
  · intro c hc
    simp only [priority, List.mem_map] at hc
    obtain ⟨j, _, rfl⟩ := hc
    rfl
  · have := (qsort_perm compare_jobs jobs).length_eq
    simpa [priority] using this

theorem priority_runs_sorted_witness :
    (priority jobs_fixture).calls =
      [Call.mk (Job.mk 1 1 5) 5, Call.mk (Job.mk 2 1 2) 2, Call.mk (Job.mk 0 2 3) 3] ∧
    ((priority jobs_fixture).calls.map Call.job).Perm jobs_fixture :=
  ⟨by decide, (priority_runs_sorted jobs_fixture).1⟩

/-! ## Lemmas on the round robin: one call -/

theorem run_total_nil (idx : Int) : run_total idx [] = 0 := rfl

theorem run_total_concat (idx : Int) (calls : List Call) (c : Call) :
    run_total idx (calls ++ [c]) =
      run_total idx calls + (if c.job.idx = idx then c.run_time else 0) := by
  unfold run_total
  by_cases h : c.job.idx = idx
  · simp [List.filter_append, List.filter_cons, h]
  · simp [List.filter_append, List.filter_cons, h]

theorem after_idx (calls : List Call) (job : Job) : (job.after calls).idx = job.idx := rfl

theorem after_priority (calls : List Call) (job : Job) :
    (job.after calls).priority = job.priority := rfl

theorem after_time (calls : List Call) (job : Job) :
    (job.after calls).time = job.time - run_total job.idx calls := rfl

theorem after_concat_same (calls : List Call) (c : Call) (job : Job)
    (h : c.job.idx = job.idx) :
    job.after (calls ++ [c]) =
      { job.after calls with time := (job.after calls).time - c.run_time } := by
  simp only [Job.after, run_total_concat, h, if_true]
  congr 1
  ring

theorem after_concat_other (calls : List Call) (c : Call) (job : Job)
    (h : c.job.idx ≠ job.idx) : job.after (calls ++ [c]) = job.after calls := by
  simp only [Job.after, run_total_concat, h, if_false, add_zero]

theorem after_nil (job : Job) : job.after [] = job := by
  simp only [Job.after, run_total_nil, sub_zero]

/-- On the array as the calls so far have left it, the `for (j ...)` loop runs the job
with the index looked for and leaves the array as the extended calls leave it. -/
theorem run_matching_after (time_slice : Int) (calls : List Call) (l : List Job) :
    ∀ job, (l.map Job.idx).Nodup → job ∈ l →
      run_matching time_slice job.idx (l.map (Job.after calls)) =
        some (l.map (Job.after (calls ++ [next_call time_slice calls job])),
          next_call time_slice calls job) := by
  induction l with
  | nil => intro job _ hmem; simp at hmem
  | cons a rest ih =>
    intro job hnd hmem
    simp only [List.map_cons, List.nodup_cons] at hnd
    obtain ⟨hnot, hnd2⟩ := hnd
    have hcidx : (next_call time_slice calls job).job.idx = job.idx := rfl
    rcases List.mem_cons.mp hmem with rfl | hrest
    · have hrest_eq : rest.map (Job.after (calls ++ [next_call time_slice calls job])) =
          rest.map (Job.after calls) := by
        apply List.map_congr_left
        intro b hb
        apply after_concat_other
        rw [hcidx]
        intro heq
        exact hnot (heq ▸ List.mem_map_of_mem Job.idx hb)
      simp only [List.map_cons, run_matching, after_idx, if_true, hrest_eq,
        after_concat_same calls _ job hcidx]
      rfl
    · have hne : a.idx ≠ job.idx := by
        intro heq
        exact hnot (heq ▸ List.mem_map_of_mem Job.idx hrest)
      simp only [List.map_cons, run_matching, after_idx, hne, if_false,
        ih job hnd2 hrest,
        after_concat_other calls _ a (by rw [hcidx]; exact fun h => hne h.symm)]

theorem left_count_cons (a : Job) (l : List Job) :
    left_count (a :: l) = (if 0 < a.time then 1 else 0) + left_count l := by
  unfold left_count
  by_cases h : 0 < a.time
  · simp [List.filter_cons, h]; ring
  · simp [List.filter_cons, h]

theorem left_count_nonneg (l : List Job) : 0 ≤ left_count l := by
  unfold left_count; omega

/-- Running a job that has time left lowers the number of jobs with time left by one
exactly when the job ends. -/
theorem run_matching_left_count (time_slice idx : Int) (l : List Job) :
    ∀ l' c, run_matching time_slice idx l = some (l', c) → 0 < c.job.time →
      left_count l' =
        left_count l - (if c.job.time - c.run_time ≤ 0 then 1 else 0) := by
  induction l with
  | nil => intro l' c h; simp [run_matching] at h
  | cons a rest ih =>
    intro l' c h hpos
    by_cases ha : a.idx = idx
    · simp only [run_matching, ha, if_true, Option.some.injEq, Prod.mk.injEq] at h
      obtain ⟨rfl, rfl⟩ := h
      simp only [left_count_cons]
      have hpos2 : 0 < a.time := hpos
      simp only [hpos2, if_true]
      split_ifs <;> omega
    · simp only [run_matching, ha, if_false] at h
      cases hr : run_matching time_slice idx rest with
      | none => rw [hr] at h; simp at h
      | some pr =>
        obtain ⟨rest', c'⟩ := pr
        rw [hr] at h
        simp only [Option.some.injEq, Prod.mk.injEq] at h
        obtain ⟨rfl, rfl⟩ := h
        simp only [left_count_cons, ih rest' c' hr hpos]
        ring

theorem validCalls_nil (jobs : List Job) (time_slice : Int) : ValidCalls jobs time_slice [] := by
  intro before c later h
  simp at h

theorem validCalls_concat (jobs : List Job) (time_slice : Int) (calls : List Call) (c : Call)
    (hv : ValidCalls jobs time_slice calls) (hc : GoodCall jobs time_slice calls c) :
    ValidCalls jobs time_slice (calls ++ [c]) := by
  intro before d later h
  rcases List.eq_nil_or_concat later with rfl | ⟨later', e, rfl⟩
  · have h2 : calls ++ [c] = before ++ [d] := h
    obtain ⟨h3, h4⟩ := List.append_inj' h2 rfl
    simp only [List.cons.injEq, and_true] at h4
    rw [← h3, ← h4]; exact hc
  · have h2 : calls ++ [c] = (before ++ d :: later') ++ [e] := by
      rw [h]; simp
    obtain ⟨h3, _⟩ := List.append_inj' h2 rfl
    exact hv before d later' h3

theorem idx_injective (jobs : List Job) (hnd : (jobs.map Job.idx).Nodup) (a b : Job)
    (ha : a ∈ jobs) (hb : b ∈ jobs) (h : a.idx = b.idx) : a = b :=
  List.inj_on_of_nodup_map hnd ha hb h

theorem after_congr (job : Job) (c1 c2 : List Call)
    (h : run_total job.idx c1 = run_total job.idx c2) : job.after c1 = job.after c2 := by
  simp only [Job.after, h]

theorem left_count_single (a : Job) : left_count [a] = if 0 < a.time then 1 else 0 := by
  rw [left_count_cons]
  simp [left_count]

/-- One visit of the round robin to the queue entry of `job`. -/
theorem rr_visit_spec (jobs : List Job) (time_slice level : Int)
    (hnd : (jobs.map Job.idx).Nodup) (hts : 0 < time_slice) (s : RRState)
    (hinv : RRInv jobs time_slice s) (job : Job) (hjob : job ∈ jobs)
    (hlevel : job.priority = level) (hlow : LowDone jobs level s.calls) :
    RRInv jobs time_slice (rr_visit time_slice (job.after s.calls) s).2 ∧
    (rr_visit time_slice (job.after s.calls) s).1 =
      job.after (rr_visit time_slice (job.after s.calls) s).2.calls ∧
    LowDone jobs level (rr_visit time_slice (job.after s.calls) s).2.calls ∧
    (∀ other : Job, other.idx ≠ job.idx →
      run_total other.idx (rr_visit time_slice (job.after s.calls) s).2.calls =
        run_total other.idx s.calls) ∧
    (rr_visit time_slice (job.after s.calls) s).2.jobs_in_queue -
        left_count [(rr_visit time_slice (job.after s.calls) s).1] =
      s.jobs_in_queue - left_count [job.after s.calls] ∧
    (rr_visit time_slice (job.after s.calls) s).2.jobs_remaining -
        (rr_visit time_slice (job.after s.calls) s).2.jobs_in_queue =
      s.jobs_remaining - s.jobs_in_queue ∧
    0 ≤ (rr_visit time_slice (job.after s.calls) s).1.time ∧
    (rr_visit time_slice (job.after s.calls) s).1.time ≤ (job.after s.calls).time ∧
    (0 < (job.after s.calls).time →
      (rr_visit time_slice (job.after s.calls) s).1.time < (job.after s.calls).time) := by
  have hbound := hinv.bounded job hjob
  have hqt : (job.after s.calls).time = job.time - run_total job.idx s.calls := rfl
  by_cases hq : (job.after s.calls).time ≤ 0
  · have hv : rr_visit time_slice (job.after s.calls) s = (job.after s.calls, s) := by
      simp only [rr_visit, hq, if_true]
    rw [hv]
    have h0 : 0 ≤ (job.after s.calls).time := by omega
    exact ⟨hinv, rfl, hlow, fun _ _ => rfl, rfl, rfl, h0, le_refl _,
      fun h => absurd h (by omega)⟩
  · have hm := run_matching_after time_slice s.calls jobs job hnd hjob
    rw [← hinv.active_eq] at hm
    have hv : rr_visit time_slice (job.after s.calls) s =
        ({ job.after s.calls with
            time := (job.after s.calls).time - (next_call time_slice s.calls job).run_time },
          { active_jobs := jobs.map (Job.after (s.calls ++ [next_call time_slice s.calls job])),
            jobs_remaining :=
              if (next_call time_slice s.calls job).job.time -
                  (next_call time_slice s.calls job).run_time ≤ 0
              then s.jobs_remaining - 1 else s.jobs_remaining,
            jobs_in_queue :=
              if (next_call time_slice s.calls job).job.time -
                  (next_call time_slice s.calls job).run_time ≤ 0
              then s.jobs_in_queue - 1 else s.jobs_in_queue,
            calls := s.calls ++ [next_call time_slice s.calls job] }) := by
      simp only [rr_visit, hq, if_false, after_idx, hm]
    have hcjob : (next_call time_slice s.calls job).job = job.after s.calls := rfl
    have hcidx : (next_call time_slice s.calls job).job.idx = job.idx := rfl
    have hrun : (next_call time_slice s.calls job).run_time =
        min (job.after s.calls).time time_slice := by
      simp only [next_call]
      split_ifs with h
      · exact (min_eq_left (le_of_lt h)).symm
      · exact (min_eq_right (not_lt.mp h)).symm
    have hrun_pos : 0 < (next_call time_slice s.calls job).run_time := by
      rw [hrun]; exact lt_min (by omega) hts
    have hrun_le : (next_call time_slice s.calls job).run_time ≤ (job.after s.calls).time := by
      rw [hrun]; exact min_le_left _ _
    rw [hv]
    refine ⟨⟨rfl, ?_, ?_, ?_⟩, ?_, ?_, ?_, ?_, ?_, ?_, ?_, ?_⟩
    · intro other hother
      show run_total other.idx (s.calls ++ [next_call time_slice s.calls job]) ≤ other.time
      rw [run_total_concat]
      by_cases hsame : (next_call time_slice s.calls job).job.idx = other.idx
      · have : job = other := idx_injective jobs hnd job other hjob hother (hcidx ▸ hsame)
        subst this
        simp only [hsame, if_true]
        omega
      · simp only [hsame, if_false, add_zero]
        exact hinv.bounded other hother
    · show (if _ then s.jobs_remaining - 1 else s.jobs_remaining) =
        left_count (jobs.map (Job.after (s.calls ++ [next_call time_slice s.calls job])))
      rw [run_matching_left_count time_slice _ _ _ _ hm (by rw [hcjob]; omega),
        ← hinv.remaining_eq]
      split_ifs <;> ring
    · exact validCalls_concat jobs time_slice s.calls _ hinv.valid
        ⟨job, hjob, rfl, hrun, hrun_pos, fun other ho hlt => hlow other ho (hlevel ▸ hlt)⟩
    · exact (after_concat_same s.calls _ job hcidx).symm
    · intro other hother hlt
      show run_total other.idx (s.calls ++ [next_call time_slice s.calls job]) = other.time
      rw [run_total_concat]
      have hne : ¬ (next_call time_slice s.calls job).job.idx = other.idx := by
        intro hsame
        have : job = other := idx_injective jobs hnd job other hjob hother (hcidx ▸ hsame)
        subst this
        omega
      simp only [hne, if_false, add_zero]
      exact hlow other hother hlt
    · intro other hne
      show run_total other.idx (s.calls ++ [next_call time_slice s.calls job]) = _
      rw [run_total_concat]
      have : ¬ (next_call time_slice s.calls job).job.idx = other.idx :=
        fun h => hne (h.symm.trans hcidx)
      simp only [this, if_false, add_zero]
    · simp only [left_count_single, hcjob]
      split_ifs <;> omega
    · show (if _ then s.jobs_remaining - 1 else s.jobs_remaining) -
        (if _ then s.jobs_in_queue - 1 else s.jobs_in_queue) = _
      split_ifs <;> ring
    · show 0 ≤ (job.after s.calls).time - (next_call time_slice s.calls job).run_time
      omega
    · show (job.after s.calls).time - (next_call time_slice s.calls job).run_time ≤ _
      omega
    · intro _
      show (job.after s.calls).time - (next_call time_slice s.calls job).run_time < _
      omega

/-! ## Lemmas on the round robin: one pass over the queue -/

theorem left_total_cons (a : Job) (l : List Job) :
    left_total (a :: l) = a.time + left_total l := by
  simp [left_total]

/-- One pass of the `for (i ...)` loop over the queue entries of the jobs `js`, all of
priority `level` and of distinct `idx`. -/
theorem rr_pass_spec (jobs : List Job) (time_slice level : Int)
    (hnd : (jobs.map Job.idx).Nodup) (hts : 0 < time_slice) (js : List Job) :
    ∀ s : RRState, RRInv jobs time_slice s →
      (∀ j ∈ js, j ∈ jobs ∧ j.priority = level) → (js.map Job.idx).Nodup →
      LowDone jobs level s.calls →
      ∃ s' : RRState,
        rr_pass time_slice (js.map (Job.after s.calls)) s =
          (js.map (Job.after s'.calls), s') ∧
        RRInv jobs time_slice s' ∧ LowDone jobs level s'.calls ∧
        (∀ other : Job, other.idx ∉ js.map Job.idx →
          run_total other.idx s'.calls = run_total other.idx s.calls) ∧
        s'.jobs_in_queue - left_count (js.map (Job.after s'.calls)) =
          s.jobs_in_queue - left_count (js.map (Job.after s.calls)) ∧
        s'.jobs_remaining - s'.jobs_in_queue = s.jobs_remaining - s.jobs_in_queue ∧
        left_total (js.map (Job.after s'.calls)) ≤ left_total (js.map (Job.after s.calls)) ∧
        (0 < left_count (js.map (Job.after s.calls)) →
          left_total (js.map (Job.after s'.calls)) <
            left_total (js.map (Job.after s.calls))) := by
  induction js with
  | nil =>
    intro s hinv _ _ hlow
    exact ⟨s, rfl, hinv, hlow, fun _ _ => rfl, rfl, rfl, le_refl _,
      fun h => absurd h (by simp [left_count])⟩
  | cons j rest ih =>
    intro s hinv hjs hnodup hlow
    simp only [List.map_cons, List.nodup_cons] at hnodup
    obtain ⟨hjnot, hrest_nd⟩ := hnodup
    obtain ⟨hj_mem, hj_level⟩ := hjs j (List.mem_cons_self _ _)
    obtain ⟨v_inv, v_eq, v_low, v_frame, v_queue, v_rem, v_nonneg, v_le, v_lt⟩ :=
      rr_visit_spec jobs time_slice level hnd hts s hinv j hj_mem hj_level hlow
    generalize hvis : rr_visit time_slice (j.after s.calls) s = visited at *
    obtain ⟨q', s1⟩ := visited
    simp only at v_inv v_eq v_low v_frame v_queue v_rem v_nonneg v_le v_lt
    have hne : ∀ b ∈ rest, b.idx ≠ j.idx := by
      intro b hb heq
      exact hjnot (heq ▸ List.mem_map_of_mem Job.idx hb)
    have hrest_eq : rest.map (Job.after s.calls) = rest.map (Job.after s1.calls) := by
      apply List.map_congr_left
      intro b hb
      exact after_congr b _ _ (v_frame b (hne b hb)).symm
    obtain ⟨s2, p_eq, p_inv, p_low, p_frame, p_queue, p_rem, p_le, p_lt⟩ :=
      ih s1 v_inv (fun b hb => hjs b (List.mem_cons_of_mem _ hb)) hrest_nd v_low
    have hq2 : q' = j.after s2.calls := by
      rw [v_eq]
      exact after_congr j _ _ (p_frame j hjnot).symm
    refine ⟨s2, ?_, p_inv, p_low, ?_, ?_, ?_, ?_, ?_⟩
    · simp only [List.map_cons, rr_pass, hvis, hrest_eq, p_eq, hq2]
    · intro other hother
      simp only [List.map_cons, List.mem_cons, not_or] at hother
      rw [p_frame other hother.2, v_frame other hother.1]
    · simp only [List.map_cons, left_count_cons]
      rw [left_count_single] at v_queue
      rw [left_count_single, hq2] at v_queue
      rw [← hrest_eq] at p_queue
      omega
    · omega
    · simp only [List.map_cons, left_total_cons]
      rw [hq2] at v_le
      rw [← hrest_eq] at p_le
      omega
    · intro hpos
      simp only [List.map_cons, left_total_cons, left_count_cons] at hpos ⊢
      rw [hq2] at v_le v_lt
      rw [← hrest_eq] at p_le p_lt
      by_cases hjt : 0 < (j.after s.calls).time
      · have := v_lt hjt
        omega
      · simp only [hjt, if_false, zero_add] at hpos
        have := p_lt hpos
        omega

/-! ## Lemmas on the round robin: the loop of one priority level -/

theorem left_total_nonneg (calls : List Call) (js : List Job)
    (h : ∀ j ∈ js, 0 ≤ (j.after calls).time) :
    0 ≤ left_total (js.map (Job.after calls)) := by
  induction js with
  | nil => simp [left_total]
  | cons j rest ih =>
    simp only [List.map_cons, left_total_cons]
    have h1 := h j (List.mem_cons_self _ _)
    have h2 := ih (fun b hb => h b (List.mem_cons_of_mem _ hb))
    omega

/-- The loop `while (jobs_in_queue > 0)` ends, on the queue of the jobs `js` of priority
`level`, once it has at least as many iterations as the queue has time left. -/
theorem rr_cycle_spec (jobs : List Job) (time_slice level : Int)
    (hnd : (jobs.map Job.idx).Nodup) (hts : 0 < time_slice) (js : List Job)
    (hjs : ∀ j ∈ js, j ∈ jobs ∧ j.priority = level) (hjs_nd : (js.map Job.idx).Nodup) :
    ∀ (bound : Nat) (s : RRState), RRInv jobs time_slice s → LowDone jobs level s.calls →
      s.jobs_in_queue = left_count (js.map (Job.after s.calls)) →
      left_total (js.map (Job.after s.calls)) ≤ bound →
      ∃ s' : RRState,
        (∀ fuel, bound ≤ fuel →
          rr_cycle time_slice fuel (js.map (Job.after s.calls)) s = some s') ∧
        RRInv jobs time_slice s' ∧
        s'.jobs_remaining = s.jobs_remaining - s.jobs_in_queue := by
  intro bound
  induction bound with
  | zero =>
    intro s hinv hlow hq htotal
    by_cases hpos : s.jobs_in_queue > 0
    · obtain ⟨s1, _, p_inv, _, _, _, _, _, p_lt⟩ :=
        rr_pass_spec jobs time_slice level hnd hts js s hinv hjs hjs_nd hlow
      have h1 := p_lt (by rw [← hq]; exact hpos)
      have h2 := left_total_nonneg s1.calls js (fun j hj => by
        have := p_inv.bounded j (hjs j hj).1
        rw [after_time]; omega)
      simp only [Nat.cast_zero] at htotal
      omega
    · have hz : s.jobs_in_queue = 0 := by
        have := left_count_nonneg (js.map (Job.after s.calls))
        omega
      refine ⟨s, fun fuel _ => ?_, hinv, by rw [hz]; ring⟩
      cases fuel <;> simp only [rr_cycle, hpos, if_false]
  | succ n ih =>
    intro s hinv hlow hq htotal
    by_cases hpos : s.jobs_in_queue > 0
    · obtain ⟨s1, p_eq, p_inv, p_low, _, p_queue, p_rem, _, p_lt⟩ :=
        rr_pass_spec jobs time_slice level hnd hts js s hinv hjs hjs_nd hlow
      have h1 := p_lt (by rw [← hq]; exact hpos)
      have hq1 : s1.jobs_in_queue = left_count (js.map (Job.after s1.calls)) := by omega
      have hb1 : left_total (js.map (Job.after s1.calls)) ≤ n := by
        simp only [Nat.cast_add, Nat.cast_one] at htotal
        omega
      obtain ⟨s', hrun, hinv', hrem'⟩ := ih s1 p_inv p_low hq1 hb1
      refine ⟨s', fun fuel hfuel => ?_, hinv', by omega⟩
      obtain ⟨g, rfl⟩ : ∃ g, fuel = g + 1 := ⟨fuel - 1, by omega⟩
      simp only [rr_cycle, hpos, if_true, p_eq]
      exact hrun g (by omega)
    · have hz : s.jobs_in_queue = 0 := by
        have := left_count_nonneg (js.map (Job.after s.calls))
        omega
      refine ⟨s, fun fuel _ => ?_, hinv, by rw [hz]; ring⟩
      cases fuel <;> simp only [rr_cycle, hpos, if_false]

/-- The first `for` loop finds a lower bound of the priority numbers of the jobs with
time left, which is the starting value or the priority number of such a job. -/
theorem find_highest_priority_spec (l : List Job) :
    ∀ start : Int,
      find_highest_priority l start ≤ start ∧
      (∀ a ∈ l, 0 < a.time → find_highest_priority l start ≤ a.priority) ∧
      (find_highest_priority l start = start ∨
        ∃ a ∈ l, 0 < a.time ∧ a.priority = find_highest_priority l start) := by
  induction l with
  | nil => intro start; exact ⟨le_refl _, fun a ha => by simp at ha, Or.inl rfl⟩
  | cons b rest ih =>
    intro start
    by_cases hb : b.time > 0 ∧ b.priority < start
    · obtain ⟨h1, h2, h3⟩ := ih b.priority
      simp only [find_highest_priority, hb, and_self, if_true]
      refine ⟨by omega, ?_, ?_⟩
      · intro a ha hpos
        rcases List.mem_cons.mp ha with rfl | hr
        · exact h1
        · exact h2 a hr hpos
      · right
        rcases h3 with h | ⟨a, ha, hpos, hp⟩
        · exact ⟨b, List.mem_cons_self _ _, hb.1, h.symm⟩
        · exact ⟨a, List.mem_cons_of_mem _ ha, hpos, hp⟩
    · obtain ⟨h1, h2, h3⟩ := ih start
      simp only [find_highest_priority, hb, if_false]
      refine ⟨h1, ?_, ?_⟩
      · intro a ha hpos
        rcases List.mem_cons.mp ha with rfl | hr
        · have : ¬ a.priority < start := fun h => hb ⟨hpos, h⟩
          omega
        · exact h2 a hr hpos
      · rcases h3 with h | ⟨a, ha, hpos, hp⟩
        · exact Or.inl h
        · exact Or.inr ⟨a, List.mem_cons_of_mem _ ha, hpos, hp⟩

/-! ## Lemmas on the round robin: the queue of a priority level -/

theorem before_after (calls : List Call) (job : Job) : (job.after calls).before calls = job := by
  cases job
  simp [Job.before, Job.after]

theorem after_before (calls : List Call) (job : Job) : (job.before calls).after calls = job := by
  cases job
  simp [Job.before, Job.after]

theorem mem_build_queue (active_jobs : List Job) (level : Int) (q : Job) :
    q ∈ build_queue active_jobs level ↔
      q ∈ active_jobs ∧ 0 < q.time ∧ q.priority = level := by
  simp [build_queue]

/-- The queue that the main loop builds when jobs remain: the entries of the jobs `js`
with time left at the least priority number `level` among the jobs with time left; it
is not empty, every entry has time left, and the jobs below `level` are done. -/
theorem queue_spec (jobs : List Job) (time_slice : Int) (hnd : (jobs.map Job.idx).Nodup)
    (hint : ∀ j ∈ jobs, j.priority ≤ INT_MAX) (s : RRState)
    (hinv : RRInv jobs time_slice s) (hr : s.jobs_remaining > 0) (level : Int)
    (queue : List Job) (hlevel : level = find_highest_priority s.active_jobs INT_MAX)
    (hqueue : queue = qsort compare_jobs_by_idx (build_queue s.active_jobs level)) :
    ∃ js : List Job, queue = js.map (Job.after s.calls) ∧
      (∀ j ∈ js, j ∈ jobs ∧ j.priority = level) ∧ (js.map Job.idx).Nodup ∧
      LowDone jobs level s.calls ∧ (queue.length : Int) = left_count queue ∧
      0 < queue.length := by
  obtain ⟨_, hlb, hattained⟩ := find_highest_priority_spec s.active_jobs INT_MAX
  rw [← hlevel] at hlb hattained
  have hperm : queue.Perm (build_queue s.active_jobs level) := by
    rw [hqueue]; exact qsort_perm _ _
  have hmem : ∀ q, q ∈ queue ↔ q ∈ s.active_jobs ∧ 0 < q.time ∧ q.priority = level :=
    fun q => (hperm.mem_iff).trans (mem_build_queue _ _ _)
  have hactive : ∀ q, q ∈ s.active_jobs ↔ ∃ j ∈ jobs, j.after s.calls = q := by
    intro q
    rw [hinv.active_eq]
    exact List.mem_map
  refine ⟨queue.map (Job.before s.calls), ?_, ?_, ?_, ?_, ?_, ?_⟩
  · rw [List.map_map]
    have : queue.map (Job.after s.calls ∘ Job.before s.calls) = queue.map id :=
      List.map_congr_left (fun q _ => after_before s.calls q)
    rw [this, List.map_id]
  · intro j hj
    obtain ⟨q, hq, rfl⟩ := List.mem_map.mp hj
    obtain ⟨hqa, _, hqp⟩ := (hmem q).mp hq
    obtain ⟨j', hj', rfl⟩ := (hactive q).mp hqa
    rw [before_after]
    exact ⟨hj', hqp⟩
  · have h1 : (queue.map (Job.before s.calls)).map Job.idx = queue.map Job.idx := by
      rw [List.map_map]; rfl
    have h2 : (s.active_jobs.map Job.idx) = jobs.map Job.idx := by
      rw [hinv.active_eq, List.map_map]; rfl
    have h3 : ((build_queue s.active_jobs level).map Job.idx).Nodup := by
      apply List.Nodup.sublist _ (h2 ▸ hnd)
      exact List.Sublist.map _ (List.filter_sublist _)
    rw [h1]
    exact (hperm.map Job.idx).nodup_iff.mpr h3
  · intro other hother hlt
    have hmem_active : other.after s.calls ∈ s.active_jobs :=
      (hactive _).mpr ⟨other, hother, rfl⟩
    have hb := hinv.bounded other hother
    by_contra hne
    have hpos : 0 < (other.after s.calls).time := by
      rw [after_time]
      omega
    have := hlb _ hmem_active hpos
    rw [after_priority] at this
    omega
  · have : queue.filter (fun job => decide (0 < job.time)) = queue :=
      List.filter_eq_self.mpr (fun q hq => by simpa using ((hmem q).mp hq).2.1)
    simp only [left_count, this]
  · have hcount : 0 < left_count s.active_jobs := by rw [← hinv.remaining_eq]; exact hr
    have hlen : 0 < (s.active_jobs.filter (fun job => decide (0 < job.time))).length := by
      unfold left_count at hcount
      exact_mod_cast hcount
    obtain ⟨a, ha⟩ := List.exists_mem_of_length_pos hlen
    obtain ⟨ha_mem, ha_pos⟩ := List.mem_filter.mp ha
    have ha_pos2 : 0 < a.time := by simpa using ha_pos
    have hex : ∃ b ∈ s.active_jobs, 0 < b.time ∧ b.priority = level := by
      rcases hattained with hmax | hb
      · refine ⟨a, ha_mem, ha_pos2, ?_⟩
        obtain ⟨j, hj, rfl⟩ := (hactive a).mp ha_mem
        have h1 := hint j hj
        have h2 := hlb _ ha_mem ha_pos2
        rw [after_priority] at h2 ⊢
        omega
      · exact hb
    obtain ⟨b, hb_mem, hb_pos, hb_level⟩ := hex
    exact List.length_pos_of_mem ((hmem b).mpr ⟨hb_mem, hb_pos, hb_level⟩)

/-! ## Lemmas on the round robin: the main loop -/

/-- The main loop of `priority_rr` ends once both bounds are large enough, with the
invariant kept and no job remaining. -/
theorem rr_main_spec (jobs : List Job) (time_slice : Int) (hnd : (jobs.map Job.idx).Nodup)
    (hts : 0 < time_slice) (hint : ∀ j ∈ jobs, j.priority ≤ INT_MAX) :
    ∀ (m : Nat) (s : RRState), RRInv jobs time_slice s → s.jobs_remaining ≤ m →
      ∃ (s' : RRState) (enough : Nat),
        (∀ inner fuel, enough ≤ inner → enough ≤ fuel →
          rr_main time_slice inner fuel s = some s') ∧
        RRInv jobs time_slice s' ∧ s'.jobs_remaining ≤ 0 := by
  intro m
  induction m with
  | zero =>
    intro s hinv hm
    have hr : ¬ s.jobs_remaining > 0 := by
      simp only [Nat.cast_zero] at hm
      omega
    refine ⟨s, 0, fun inner fuel _ _ => ?_, hinv, by omega⟩
    cases fuel <;> simp only [rr_main, hr, if_false]
  | succ n ih =>
    intro s hinv hm
    by_cases hr : s.jobs_remaining > 0
    · obtain ⟨js, hq_eq, hjs, hjs_nd, hlow, hq_count, hq_pos⟩ :=
        queue_spec jobs time_slice hnd hint s hinv hr _ _ rfl rfl
      have hinv0 : RRInv jobs time_slice
          { s with jobs_in_queue :=
              ((qsort compare_jobs_by_idx (build_queue s.active_jobs
                (find_highest_priority s.active_jobs INT_MAX))).length : Int) } :=
        ⟨hinv.active_eq, hinv.bounded, hinv.remaining_eq, hinv.valid⟩
      obtain ⟨s1, hcycle, hinv1, hrem1⟩ :=
        rr_cycle_spec jobs time_slice _ hnd hts js hjs hjs_nd
          (left_total (js.map (Job.after s.calls))).toNat _ hinv0 hlow
          (by rw [← hq_eq]; exact hq_count) (Int.self_le_toNat _)
      have hless : s1.jobs_remaining ≤ n := by
        have h1 : s1.jobs_remaining = s.jobs_remaining -
            ((qsort compare_jobs_by_idx (build_queue s.active_jobs
              (find_highest_priority s.active_jobs INT_MAX))).length : Int) := hrem1
        simp only [Nat.cast_add, Nat.cast_one] at hm
        omega
      obtain ⟨s', enough, hmain, hinv', hdone⟩ := ih s1 hinv1 hless
      refine ⟨s', max (left_total (js.map (Job.after s.calls))).toNat (enough + 1),
        fun inner fuel hinner hfuel => ?_, hinv', hdone⟩
      obtain ⟨g, rfl⟩ : ∃ g, fuel = g + 1 := ⟨fuel - 1, by omega⟩
      have hc := hcycle inner (by omega)
      rw [← hq_eq] at hc
      simp only [rr_main, hr, if_true, hc]
      exact hmain inner g (by omega) (by omega)
    · refine ⟨s, 0, fun inner fuel _ _ => ?_, hinv, by omega⟩
      cases fuel <;> simp only [rr_main, hr, if_false]

/-- The state in which `priority_rr` enters its main loop satisfies the invariant. -/
theorem rr_initial (jobs : List Job) (time_slice : Int) (htime : ∀ j ∈ jobs, 0 < j.time) :
    RRInv jobs time_slice ⟨jobs, jobs.length, 0, []⟩ := by
  refine ⟨?_, ?_, ?_, validCalls_nil jobs time_slice⟩
  · show jobs = jobs.map (Job.after [])
    have : jobs.map (Job.after []) = jobs.map id :=
      List.map_congr_left (fun j _ => after_nil j)
    rw [this, List.map_id]
  · intro j hj
    show run_total j.idx [] ≤ j.time
    rw [run_total_nil]
    exact le_of_lt (htime j hj)
  · show (jobs.length : Int) = left_count jobs
    have : jobs.filter (fun job => decide (0 < job.time)) = jobs :=
      List.filter_eq_self.mpr (fun q hq => by simpa using htime q hq)
    simp only [left_count, this]

/-- When no job remains, every job has been given exactly its time. -/
theorem rr_all_given (jobs : List Job) (time_slice : Int) (s : RRState)
    (hinv : RRInv jobs time_slice s) (hdone : s.jobs_remaining ≤ 0) :
    ∀ j ∈ jobs, run_total j.idx s.calls = j.time := by
  intro j hj
  have hb := hinv.bounded j hj
  have hzero : (s.active_jobs.filter (fun job => decide (0 < job.time))).length = 0 := by
    have h1 := hinv.remaining_eq
    unfold left_count at h1
    omega
  have hnil := List.length_eq_zero.mp hzero
  have hmem : j.after s.calls ∈ s.active_jobs := by
    rw [hinv.active_eq]; exact List.mem_map_of_mem _ hj
  have hnot : ¬ 0 < (j.after s.calls).time := by
    intro hpos
    have : j.after s.calls ∈ s.active_jobs.filter (fun job => decide (0 < job.time)) :=
      List.mem_filter.mpr ⟨hmem, by simpa using hpos⟩
    rw [hnil] at this
    simp at this
  rw [after_time] at hnot
  omega

/-! ## Theorem on the round robin -/

/-- C19: for every job array in which all jobs have `time > 0` and pairwise distinct
`idx` (and priorities that are `int` values), and every `time_slice > 0`, `priority_rr`
ends: with every large enough bound on its loops it returns the same final state.
Every `run_job` call runs a job of the array for the lesser of its time left and the
time slice, which is positive; no call is made while a job with a strictly smaller
priority number has time left; and the run times given to each job sum to that job's
initial time. -/
theorem priority_rr_completes (jobs : List Job) (time_slice : Int)
    (htime : ∀ j ∈ jobs, 0 < j.time) (hidx : (jobs.map Job.idx).Nodup)
    (hts : 0 < time_slice) (hint : ∀ j ∈ jobs, j.priority ≤ INT_MAX) :
    ∃ r : RRState,
      (∃ enough, ∀ fuel, enough ≤ fuel → priority_rr fuel jobs time_slice = some r) ∧
      (∀ before c later, r.calls = before ++ c :: later →
        ∃ job ∈ jobs, c.job = job.after before ∧
          c.run_time = min c.job.time time_slice ∧ 0 < c.run_time ∧
          ∀ other ∈ jobs, other.priority < job.priority →
            run_total other.idx before = other.time) ∧
      (∀ job ∈ jobs, run_total job.idx r.calls = job.time) := by
  obtain ⟨r, enough, hmain, hinv, hdone⟩ :=
    rr_main_spec jobs time_slice hidx hts hint jobs.length _
      (rr_initial jobs time_slice htime) (le_refl _)
  exact ⟨r, ⟨enough, fun fuel hfuel => hmain fuel fuel hfuel hfuel⟩,
    fun before c later h => hinv.valid before c later h,
    rr_all_given jobs time_slice r hinv hdone⟩

theorem priority_rr_completes_witness :
    ∃ r : RRState,
      (∃ enough, ∀ fuel, enough ≤ fuel → priority_rr fuel jobs_fixture 2 = some r) ∧
      (∀ before c later, r.calls = before ++ c :: later →
        ∃ job ∈ jobs_fixture, c.job = job.after before ∧
          c.run_time = min c.job.time 2 ∧ 0 < c.run_time ∧
          ∀ other ∈ jobs_fixture, other.priority < job.priority →
            run_total other.idx before = other.time) ∧
      (∀ job ∈ jobs_fixture, run_total job.idx r.calls = job.time) :=
  priority_rr_completes jobs_fixture 2 (by decide) (by decide) (by decide) (by decide)

end OSC
